import Mathlib

/-!
Verification of the dcos-go core components against their natural-language
specification.

Part 1 embeds the `future` package (futures and promises): the promise
completion protocol, synchronous construction-time completers, asynchronous
`OnComplete` listeners, and the blocking accessors `Block` / `BlockContext`.

Part 2 embeds the `zkstore` package: path construction (`path.Clean`,
`path.Join`, `strings.Split` over rune lists), name/category validation,
hash bucketing, and the `Put` / `Delete` / `Versions` operations against a
model of the ZooKeeper connection as an association list from canonical
znode paths to node data and versions.

Go strings are modelled as `List Char`; Go byte slices as `List Nat`;
Go `int32` / `int64` values as `Int` (overflow does not arise on the code
paths embedded here: ZK versions are produced by the model itself and the
64-bit little-endian read applies an explicit two's-complement fold).
-/

set_option autoImplicit false

namespace DcosGo

namespace FutureM

/-- Completion values: Go `interface\x7b\x7d` with `nil`; `none` models nil. -/
abbrev Val := Option Nat

/-- Sentinel errors used by the future package: `context.Canceled` plus
arbitrary other errors. -/
inductive FErr where
  | canceled
  | other (n : Nat)
deriving DecidableEq

/-- A Go `error` value: `none` models a nil error. -/
abbrev ErrO := Option FErr

/-- State of a `future` value: `completed = some (v, e)` models a closed
`done` channel with stored value `f.v = v` and error `f.err = e`. -/
structure FutureSt where
  completed : Option (Val × ErrO)
deriving DecidableEq

/-- Outcome of a two-way Go `select` between a `done` channel and a cancel
channel: `some true` picks the done branch, `some false` the cancel branch,
`none` blocks.  `pick` resolves the nondeterministic tie when both are ready. -/
def goSelect2 (doneReady cancelReady pick : Bool) : Option Bool :=
  match doneReady, cancelReady with
  | true, false => some true
  | false, true => some false
  | true, true => some pick
  | false, false => none

/-- Embedding of `future.Block` (src/unnamed/part_009): select on done vs
cancel; on the cancel branch an inner select re-checks done and otherwise
returns `context.Canceled` with a nil value.  `none` models blocking forever. -/
def futureBlock (f : FutureSt) (cancelReady pick : Bool) : Option (Val × ErrO) :=
  match goSelect2 f.completed.isSome cancelReady pick with
  | some true => f.completed
  | some false =>
    match f.completed with
    | some ve => some ve
    | none => some (none, some FErr.canceled)
  | none => none

/-- A `context.Context` as observed by `BlockContext`: whether `Done()` is
closed and what `Err()` returns. -/
structure Ctx where
  doneB : Bool
  errF : ErrO
deriving DecidableEq

/-- Embedding of `future.BlockContext` (src/unnamed/part_009): like `Block`
but the cancel branch returns `ctx.Err()` with the value left unset. -/
def futureBlockContext (f : FutureSt) (ctx : Ctx) (pick : Bool) : Option (Val × ErrO) :=
  match goSelect2 f.completed.isSome ctx.doneB pick with
  | some true => f.completed
  | some false =>
    match f.completed with
    | some ve => some ve
    | none => some (none, ctx.errF)
  | none => none

/-- An asynchronous `OnComplete` listener, identified by a registration id;
`panics` models a listener whose body panics when invoked. -/
structure AsyncCb where
  id : Nat
  panics : Bool
deriving DecidableEq

/-- State of a promise built by `NewPromise`: construction-time synchronous
completers (ids, in registration order), asynchronous callbacks appended by
`OnComplete`, whether a panic handler was installed by `OnPanic`, and the
completion flag plus stored future value/error. -/
structure PromiseSt where
  completers : List Nat
  callbacks : List AsyncCb
  panicHandlerSet : Bool
  completed : Bool
  fv : Val
  fe : ErrO
deriving DecidableEq

/-- A freshly constructed promise with the given construction-time completers. -/
def mkPromise (completers : List Nat) : PromiseSt :=
  ⟨completers, [], false, false, none, none⟩

/-- Order in which the completer loop of `complete` pushes deferred
invocations: the loop walks indices `len-1` down to `0`, so the defer stack
(head = most recently pushed) ends up holding the completers in
registration order; the stack is built by pushing `completers[len-1]` first. -/
def completerPushOrder (cs : List Nat) : List Nat := cs.reverse

/-- Go `defer` semantics: deferred calls run last-in-first-out, i.e. in
reverse push order. -/
def deferExec (pushes : List Nat) : List Nat := pushes.reverse

/-- One scheduled batch of asynchronous listeners: the snapshot `cb2` of the
callbacks slice, the completion value/error, and whether a panic handler was
set at completion time. -/
structure AsyncBatch where
  cbs : List AsyncCb
  bv : Val
  be : ErrO
  handlerSet : Bool
deriving DecidableEq

/-- Embedding of the `complete` closure of `NewPromise`
(src/unnamed/part_009): if already completed, do nothing; otherwise store
the value and error, mark completed, clear the callbacks slice, invoke the
construction-time completers via per-completer `defer`s (returned as the
trace component, in actual execution order), and schedule one goroutine for
the snapshotted asynchronous callbacks (returned as the batch component). -/
def completeFn (p : PromiseSt) (v : Val) (e : ErrO) :
    PromiseSt × List (Nat × Val × ErrO) × Option AsyncBatch :=
  if p.completed then (p, [], none)
  else
    ({ p with completed := true, fv := v, fe := e, callbacks := [] },
     (deferExec (completerPushOrder p.completers)).map (fun i => (i, v, e)),
     if p.callbacks.length > 0 then some ⟨p.callbacks, v, e, p.panicHandlerSet⟩ else none)

/-- The listeners actually invoked by the scheduled goroutine, and whether a
panic occurred: the loop body runs each listener in order; a panicking
listener transfers control to the single deferred recover wrapper, so the
listeners after it are not invoked. -/
def runBatchInvoked : List AsyncCb → List Nat × Bool
  | [] => ([], false)
  | cb :: rest =>
    if cb.panics then ([cb.id], true)
    else
      let r := runBatchInvoked rest
      (cb.id :: r.1, r.2)

/-- Full goroutine outcome for a batch: invoked listener ids, whether the
panic handler was called, and whether the panic escaped (no handler set:
the deferred wrapper returns without calling `recover`). -/
def runBatch (b : AsyncBatch) : List Nat × Bool × Bool :=
  let r := runBatchInvoked b.cbs
  (r.1, r.2 && b.handlerSet, r.2 && !b.handlerSet)

/-- The four completion entry points of a promise: `Complete(v, e)`,
`Error(e)`, `Value(v)` and `Cancel()`. -/
inductive PCall where
  | completeC (v : Val) (e : ErrO)
  | errorC (e : ErrO)
  | valueC (v : Val)
  | cancelC
deriving DecidableEq

/-- Arguments each entry point forwards to `complete`: `Error(err)` is
`complete(nil, err)`, `Value(v)` is `complete(v, nil)`, `Cancel()` is
`complete(nil, context.Canceled)`. -/
def callArgs : PCall → Val × ErrO
  | .completeC v e => (v, e)
  | .errorC e => (none, e)
  | .valueC v => (v, none)
  | .cancelC => (none, some FErr.canceled)

/-- Effect of one completion entry point on the promise state. -/
def applyCall (p : PromiseSt) (c : PCall) : PromiseSt :=
  (completeFn p (callArgs c).1 (callArgs c).2).1

/-- Effect of a sequence of completion calls. -/
def applyCalls (p : PromiseSt) (cs : List PCall) : PromiseSt :=
  cs.foldl applyCall p

end FutureM

namespace ZkStore

/-- Go strings, modelled as their rune lists. -/
abbrev GoStr := List Char

/-- Conversion from a Lean string literal to the Go string model. -/
def gs (s : String) : GoStr := s.data

/-- Go byte slices. -/
abbrev Bytes := List Nat

/-- Decidable equality for `Except`, needed to evaluate concrete store
outcomes. -/
instance exceptDecidableEq {ε α : Type} [DecidableEq ε] [DecidableEq α] :
    DecidableEq (Except ε α) := fun x y =>
  match x, y with
  | .ok a, .ok b =>
    if h : a = b then .isTrue (by rw [h])
    else .isFalse (by intro hc; cases hc; exact h rfl)
  | .error a, .error b =>
    if h : a = b then .isTrue (by rw [h])
    else .isFalse (by intro hc; cases hc; exact h rfl)
  | .ok _, .error _ => .isFalse (by intro hc; cases hc)
  | .error _, .ok _ => .isFalse (by intro hc; cases hc)

/-- Embedding of `strings.Split(s, "/")`: split at every slash; the empty
string splits to `[""]`. -/
def splitSlash : GoStr → List GoStr
  | [] => [[]]
  | c :: rest =>
    match splitSlash rest with
    | [] => [[]]
    | s :: ss => if c = '/' then [] :: s :: ss else (c :: s) :: ss

/-- Whether a path is rooted (begins with a slash). -/
def isRooted : GoStr → Bool
  | [] => false
  | c :: _ => c = '/'

/-- One step of the `path.Clean` element scan, operating on a count of
leading `..` elements (only reachable for non-rooted paths) and a stack of
kept elements: empty and `.` elements are dropped, `..` pops the stack (or,
non-rooted with an empty stack, is kept as a leading `..`), and any other
element is pushed. -/
def cleanStep (rooted : Bool) : Nat × List GoStr → GoStr → Nat × List GoStr
  | (dd, stack), seg =>
    if seg = [] ∨ seg = gs "." then (dd, stack)
    else if seg = gs ".." then
      match stack with
      | [] => if rooted then (dd, []) else (dd + 1, [])
      | _ :: _ => (dd, stack.dropLast)
    else (dd, stack ++ [seg])

/-- The cleaned element list of a path: leading `..` elements (non-rooted
paths only) followed by the kept elements. -/
def cleanSegs (rooted : Bool) (segs : List GoStr) : List GoStr :=
  List.replicate (segs.foldl (cleanStep rooted) (0, [])).1 (gs "..")
    ++ (segs.foldl (cleanStep rooted) (0, [])).2

/-- Join path elements with single slashes (no cleaning). -/
def joinSegs : List GoStr → GoStr
  | [] => []
  | [s] => s
  | s :: rest => s ++ '/' :: joinSegs rest

/-- Rebuild a path from its cleaned element list: `/`-prefixed for rooted
paths; an empty element list yields `/` (rooted) or `.` (non-rooted), as
`path.Clean` does. -/
def rebuild (rooted : Bool) (segs : List GoStr) : GoStr :=
  match segs with
  | [] => if rooted then gs "/" else gs "."
  | _ :: _ => (if rooted then ['/'] else []) ++ joinSegs segs

/-- Embedding of Go `path.Clean`: lexical processing of the slash-separated
elements per the documented algorithm (collapse multiple slashes, drop `.`,
resolve `..`, return `.` for an empty result). -/
def pathClean (p : GoStr) : GoStr :=
  if p = [] then gs "."
  else rebuild (isRooted p) (cleanSegs (isRooted p) (splitSlash p))

/-- Embedding of Go `path.Join`: drop empty elements, join the rest with
slashes, and clean; all-empty input yields the empty string. -/
def pathJoin (elems : List GoStr) : GoStr :=
  if joinSegs (elems.filter (fun e => e ≠ [])) = [] then []
  else pathClean (joinSegs (elems.filter (fun e => e ≠ [])))

/-- Character class of the name pattern `[A-Za-z0-9_-]` used by
`validNameRE` (src/unnamed/part_003). -/
def isNameChar (c : Char) : Bool :=
  c.isAlphanum || c = '_' || c = '-'

/-- Character class of the category pattern `[/A-Za-z0-9_-]` used by
`validCategoryRE` (src/unnamed/part_003). -/
def isCategoryChar (c : Char) : Bool :=
  c.isAlphanum || c = '_' || c = '-' || c = '/'

/-- Go `strings.TrimSpace` on the rune-list model. -/
def trimSpace (s : GoStr) : GoStr :=
  (s.dropWhile Char.isWhitespace).reverse.dropWhile Char.isWhitespace |>.reverse

/-- ZooKeeper client sentinel errors used by the store. -/
inductive ZkErr where
  | noNode
  | badVersion
  | nodeExists
  | notEmpty
deriving DecidableEq

/-- Validation errors and store errors, as distinguishable kinds: version
conflicts, validation failures (with the source message), propagated
ZooKeeper errors, and the internal re-stat failure of `setFully`. -/
inductive StoreErr where
  | versionConflict
  | invalid (msg : String)
  | zkError (e : ZkErr)
  | couldNotStat
deriving DecidableEq

/-- A failure outcome: either an error value returned by the Go code, or a
runtime panic (never returned, it aborts the operation). -/
inductive Fail where
  | err (e : StoreErr)
  | panicked
deriving DecidableEq

/-- Embedding of `validateNamed` (src/unnamed/part_003): no surrounding
whitespace, blank only when not required, and every rune in the name class. -/
def validateNamed (name : GoStr) (required : Bool) : Except Fail Unit :=
  if trimSpace name ≠ name then .error (.err (.invalid "leader or trailing spaces not allowed"))
  else if required && name = [] then .error (.err (.invalid "cannot be blank"))
  else if ¬ name.all isNameChar then .error (.err (.invalid "must match name pattern"))
  else .ok ()

/-- Embedding of `validateCategory` (src/unnamed/part_003): non-blank after
trimming and matching the non-empty category pattern. -/
def validateCategory (name : GoStr) : Except Fail Unit :=
  if trimSpace name = [] then .error (.err (.invalid "cannot be blank"))
  else if ¬ (name ≠ [] && name.all isCategoryChar) then
    .error (.err (.invalid "must match category pattern"))
  else .ok ()

/-- A `Location`: category plus item name. -/
structure Location where
  category : GoStr
  name : GoStr
deriving DecidableEq

/-- Modelled from the spec: `Location.Validate` is referenced by
`Ident.Validate` (src/zkstore/ident.go) but the file defining `Location`'s
validator is not in src/.  Per spec sections 3 and 4.1, Category and Name
must each pass their syntax validator, Name and Category being required
(non-blank); failures are validation-kind errors. -/
def Location.validate (l : Location) : Except Fail Unit :=
  match validateCategory l.category with
  | .error e => .error e
  | .ok _ => validateNamed l.name true

/-- An `Ident` (src/zkstore/ident.go): a location, an optional named
version (the spec's Variant, a string), and an optional ZK version used for
compare-and-swap. -/
structure Ident where
  location : Location
  version : GoStr
  zkVersion : Option Int
deriving DecidableEq

/-- Embedding of `Ident.actualZKVersion`: `-1` when no ZK version is set. -/
def Ident.actualZKVersion (i : Ident) : Int :=
  match i.zkVersion with
  | none => -1
  | some v => v

/-- Embedding of `Ident.Validate`: the location must validate, and the
named version must validate as a non-required name. -/
def Ident.validate (i : Ident) : Except Fail Unit :=
  match i.location.validate with
  | .error e => .error e
  | .ok _ => validateNamed i.version false

/-- An `Item` (src/unnamed/part_003): an ident plus payload bytes. -/
structure Item where
  ident : Ident
  data : Bytes
deriving DecidableEq

/-- Embedding of `Item.Validate`: the ident must validate and the payload
must not exceed 1 MiB. -/
def Item.validate (i : Item) : Except Fail Unit :=
  match i.ident.validate with
  | .error e => .error e
  | .ok _ =>
    if i.data.length > 1024 * 1024 then .error (.err (.invalid "data is greater than 1MB"))
    else .ok ()

/-- A znode: payload bytes and the ZK data version stamp. -/
structure Znode where
  data : Bytes
  version : Int
deriving DecidableEq

/-- The ZooKeeper tree, as an association list from full canonical paths to
znodes; the root `/` exists implicitly and is never created or deleted. -/
abbrev ZkState := List (GoStr × Znode)

/-- Lookup of a znode by full path. -/
def zkLookup : ZkState → GoStr → Option Znode
  | [], _ => none
  | (q, n) :: rest, p => if q = p then some n else zkLookup rest p

/-- Embedding of `conn.Exists`: the root always exists. -/
def zkExists (st : ZkState) (p : GoStr) : Bool :=
  p = gs "/" || (zkLookup st p).isSome

/-- The non-empty elements of a path. -/
def segsOf (p : GoStr) : List GoStr :=
  (splitSlash p).filter (fun e => e ≠ [])

/-- The parent path of a znode path. -/
def parentPath (p : GoStr) : GoStr :=
  rebuild true (segsOf p).dropLast

/-- Embedding of `conn.Set(path, data, version)`: fails with `NoNode` for a
missing node, with `BadVersion` when a non-`-1` expected version mismatches;
otherwise stores the data, bumps the version stamp, and returns the new
stamp. -/
def zkSet (st : ZkState) (p : GoStr) (data : Bytes) (ver : Int) :
    Except ZkErr (Int × ZkState) :=
  match zkLookup st p with
  | none => .error .noNode
  | some n =>
    if ver ≠ -1 ∧ ver ≠ n.version then .error .badVersion
    else .ok (n.version + 1,
      st.map (fun q => if q.1 = p then (q.1, ⟨data, n.version + 1⟩) else q))

/-- Embedding of `conn.Create(path, data, 0, acls)`: fails with
`NodeExists` for an existing node and `NoNode` for a missing parent;
otherwise creates the node with data version 0. -/
def zkCreate (st : ZkState) (p : GoStr) (data : Bytes) : Except ZkErr ZkState :=
  if zkExists st p then .error .nodeExists
  else if ¬ zkExists st (parentPath p) then .error .noNode
  else .ok ((p, ⟨data, 0⟩) :: st)

/-- Names of the immediate children of a node. -/
def childNames (st : ZkState) (p : GoStr) : List GoStr :=
  ((st.map Prod.fst).filter (fun q => segsOf q ≠ [] && parentPath q = p)).map
    (fun q => (segsOf q).getLastD [])

/-- Embedding of `conn.Children`: fails with `NoNode` for a missing node. -/
def zkChildren (st : ZkState) (p : GoStr) : Except ZkErr (List GoStr) :=
  if ¬ zkExists st p then .error .noNode
  else .ok (childNames st p)

/-- Embedding of `conn.Delete(path, version)`: fails with `NoNode` for a
missing node, `BadVersion` on a version mismatch (unless `-1`), and
`NotEmpty` when children remain. -/
def zkDelete (st : ZkState) (p : GoStr) (ver : Int) : Except ZkErr ZkState :=
  match zkLookup st p with
  | none => .error .noNode
  | some n =>
    if ver ≠ -1 ∧ ver ≠ n.version then .error .badVersion
    else if childNames st p ≠ [] then .error .notEmpty
    else .ok (st.filter (fun q => q.1 ≠ p))

/-- Store configuration (src/zkstore/store.go): base path, buckets znode
name, bucket count, optional bucket-override function (test seam) and the
hash provider, modelled as the digest of the written bytes.  ACLs are not
observable in the model and are omitted; `hash.Hash.Write` never returns an
error. -/
structure Store where
  basePath : GoStr
  bucketsZnodeName : GoStr
  hashBuckets : Int
  bucketFunc : Option (GoStr → Except Fail Int)
  hashProviderFunc : Bytes → Bytes

/-- UTF-8 encoding of one rune, as Go `[]byte(string)` produces. -/
def utf8Char (c : Char) : Bytes :=
  let n := c.toNat
  if n < 0x80 then [n]
  else if n < 0x800 then [0xC0 + n / 0x40, 0x80 + n % 0x40]
  else if n < 0x10000 then
    [0xE0 + n / 0x1000, 0x80 + n / 0x40 % 0x40, 0x80 + n % 0x40]
  else
    [0xF0 + n / 0x40000, 0x80 + n / 0x1000 % 0x40, 0x80 + n / 0x40 % 0x40, 0x80 + n % 0x40]

/-- UTF-8 bytes of a Go string. -/
def utf8Bytes (s : GoStr) : Bytes :=
  s.flatMap utf8Char

/-- Little-endian unsigned value of a byte list. -/
def leNat : Bytes → Nat
  | [] => 0
  | b :: rest => b % 256 + 256 * leNat rest

/-- Interpretation of 8 bytes as a signed 64-bit little-endian integer, as
`binary.Read(..., binary.LittleEndian, &res)` into an `int64` does. -/
def toInt64LE (bytes : Bytes) : Int :=
  let u := leNat bytes
  if u < 2 ^ 63 then (u : Int) else (u : Int) - 2 ^ 64

/-- Go's `%` on `int` (truncating remainder) followed by the source's
`if mod < 0 then mod = mod * -1` fold to a non-negative value. -/
def goAbsMod (res k : Int) : Int :=
  if Int.tmod res k < 0 then Int.tmod res k * -1 else Int.tmod res k

/-- Embedding of `Store.hashBytesToBucket` (src/zkstore/store.go): slice
the last 8 bytes of the digest — a digest shorter than 8 bytes makes the Go
slice expression `hash[len(hash)-8:]` panic, modelled as `Fail.panicked` —
read them as a signed 64-bit little-endian integer, reduce with Go's
truncating `%` by the bucket count, and negate a negative remainder. -/
def hashBytesToBucket (s : Store) (hash : Bytes) : Except Fail Int :=
  if hash.length < 8 then .error .panicked
  else .ok (goAbsMod (toInt64LE (hash.drop (hash.length - 8))) s.hashBuckets)

/-- Embedding of `Store.bucketFor`: delegate to the override when set,
otherwise hash the name's UTF-8 bytes and map the digest to a bucket. -/
def bucketFor (s : Store) (name : GoStr) : Except Fail Int :=
  match s.bucketFunc with
  | some f => f name
  | none => hashBytesToBucket s (s.hashProviderFunc (utf8Bytes name))

/-- Decimal digit character. -/
def digitChar (d : Nat) : Char := Char.ofNat (48 + d)

/-- Fuelled decimal printer for naturals. -/
def natDigsAux : Nat → Nat → GoStr
  | 0, _ => []
  | fuel + 1, n =>
    if n < 10 then [digitChar n]
    else natDigsAux fuel (n / 10) ++ [digitChar (n % 10)]

/-- Embedding of `strconv.Itoa`. -/
def itoa (i : Int) : GoStr :=
  if i < 0 then '-' :: natDigsAux (i.natAbs + 1) i.natAbs
  else natDigsAux (i.toNat + 1) i.toNat

/-- Embedding of `Store.bucketsPath` (src/zkstore/store.go): reject a
category whose cleaned final element equals the buckets znode name,
otherwise join base path, category and buckets znode name.  This is a pure
path computation: no ZK state is consulted. -/
def bucketsPath (s : Store) (category : GoStr) : Except Fail GoStr :=
  let segments := splitSlash (pathClean category)
  if segments.getLastD [] = s.bucketsZnodeName then
    .error (.err (.invalid "category may not end with the buckets znode name"))
  else .ok (pathJoin [gs "/", s.basePath, category, s.bucketsZnodeName])

/-- Embedding of `Store.identPath`: bucket for the name, buckets path for
the category, then join with the bucket number, name and version.  Also a
pure path computation. -/
def identPath (s : Store) (ident : Ident) : Except Fail GoStr :=
  match bucketFor s ident.location.name with
  | .error e => .error e
  | .ok bucket =>
    match bucketsPath s ident.location.category with
    | .error e => .error e
    | .ok bp => .ok (pathJoin [bp, itoa bucket, ident.location.name, ident.version])

/-- Embedding of `Store.mustExist`: re-stat a path, failing when it does
not exist.  The root carries a dummy stamp (it is never queried here). -/
def mustExist (st : ZkState) (p : GoStr) : Except Fail Int :=
  match zkLookup st p with
  | some n => .ok n.version
  | none => if p = gs "/" then .ok 0 else .error (.err .couldNotStat)

/-- Embedding of the segment walk of `Store.setFully`: for each remaining
element, join it onto the current path; an existing node is skipped; a
missing final node with a requested (non-negative) ZK version is a version
conflict; otherwise the node is created — with the item payload for the
final element and, when the ident carries a named version, for its
immediate parent; with nil data for every other element — and a concurrent
`NodeExists` race is swallowed. -/
def setFullyNodeData (item : Item) (rest : List GoStr) : Bytes :=
  if rest = [] ∨ (item.ident.version ≠ [] ∧ rest.length = 1) then item.data else []

/-- Embedding of the segment walk of `Store.setFully`, continued: the walk
itself.  The current element is the last one exactly when no elements
remain after it, and the parent-of-version element exactly when one
remains. -/
def setFullyLoop (item : Item) : List GoStr → GoStr → ZkState →
    Except Fail Unit × ZkState
  | [], _, st => (.ok (), st)
  | seg :: rest, current, st =>
    if zkExists st (pathJoin [current, seg]) then
      setFullyLoop item rest (pathJoin [current, seg]) st
    else if rest = [] ∧ item.ident.actualZKVersion ≥ 0 then
      (.error (.err .versionConflict), st)
    else
      match zkCreate st (pathJoin [current, seg]) (setFullyNodeData item rest) with
      | .error .nodeExists => setFullyLoop item rest (pathJoin [current, seg]) st
      | .error e => (.error (.err (.zkError e)), st)
      | .ok st2 => setFullyLoop item rest (pathJoin [current, seg]) st2

/-- Embedding of `Store.setFully`: walk the split ident path from the root,
then re-stat the final node. -/
def setFully (s : Store) (item : Item) (st : ZkState) : Except Fail Int × ZkState :=
  match identPath s item.ident with
  | .error e => (.error e, st)
  | .ok p =>
    match setFullyLoop item (splitSlash p) (gs "/") st with
    | (.error e, st2) => (.error e, st2)
    | (.ok _, st2) =>
      match mustExist st2 p with
      | .error e => (.error e, st2)
      | .ok ver => (.ok ver, st2)

/-- The ident with its ZK version updated from a stat, as
`item.Ident.SetZKVersion(stat.Version)` does. -/
def setIdentZKVersion (i : Ident) (v : Int) : Ident :=
  { i with zkVersion := some v }

/-- Embedding of `Store.Put`: validate, compute the path, try the direct
conditional `Set` (fast path); fall through to `setFully` on `NoNode`,
translate `BadVersion` to the version-conflict error, propagate other
errors; on success return the ident holding the fresh stamp. -/
def put (s : Store) (item : Item) (st : ZkState) : Except Fail Ident × ZkState :=
  match item.validate with
  | .error e => (.error e, st)
  | .ok _ =>
    match identPath s item.ident with
    | .error e => (.error e, st)
    | .ok p =>
      match zkSet st p item.data item.ident.actualZKVersion with
      | .error .noNode =>
        match setFully s item st with
        | (.error e, st2) => (.error e, st2)
        | (.ok ver, st2) => (.ok (setIdentZKVersion item.ident ver), st2)
      | .error .badVersion => (.error (.err .versionConflict), st)
      | .error e => (.error (.err (.zkError e)), st)
      | .ok (ver, st2) => (.ok (setIdentZKVersion item.ident ver), st2)

/-- Lexicographic Go string comparison on the rune-list model. -/
def goStrLt : GoStr → GoStr → Bool
  | [], [] => false
  | [], _ :: _ => true
  | _ :: _, [] => false
  | a :: as, b :: bs => if a = b then goStrLt as bs else decide (a < b)

/-- Insert into a sorted list. -/
def sortInsert (x : GoStr) : List GoStr → List GoStr
  | [] => [x]
  | y :: ys => if goStrLt x y then x :: y :: ys else y :: sortInsert x ys

/-- Embedding of `sort.Strings`. -/
def sortStrings : List GoStr → List GoStr
  | [] => []
  | x :: xs => sortInsert x (sortStrings xs)

/-- Embedding of `Store.Versions`: validate the location, list the children
of the bare item node, report `found=false` on `NoNode`, and sort the
version names. -/
def versions (s : Store) (loc : Location) (st : ZkState) :
    Except Fail (List GoStr × Bool) :=
  match loc.validate with
  | .error e => .error e
  | .ok _ =>
    match identPath s ⟨loc, [], none⟩ with
    | .error e => .error e
    | .ok p =>
      match zkChildren st p with
      | .error .noNode => .ok ([], false)
      | .error e => .error (.err (.zkError e))
      | .ok vs => .ok (sortStrings vs, true)

/-- Embedding of `Store.deleteVersion`: delete one named-version node with
the ident's version sentinel; `NoNode` leaves found false with a nil error,
`BadVersion` becomes the version-conflict error. -/
def deleteVersion (s : Store) (ident : Ident) (st : ZkState) :
    Bool × Option Fail × ZkState :=
  match identPath s ident with
  | .error e => (false, some e, st)
  | .ok p =>
    match zkDelete st p ident.actualZKVersion with
    | .error .noNode => (false, none, st)
    | .error .badVersion => (false, some (.err .versionConflict), st)
    | .error e => (true, some (.err (.zkError e)), st)
    | .ok st2 => (true, none, st2)

/-- Embedding of the version-deletion loop of `Store.deleteItem`: each
enumerated version is deleted through an ident whose ZK version is cleared
(`versionIdent.ZKVersion = nil`), forcing the version check off. -/
def deleteVariantsLoop (s : Store) (ident : Ident) :
    List GoStr → ZkState → Option Fail × ZkState
  | [], st => (none, st)
  | v :: rest, st =>
    match deleteVersion s { ident with version := v, zkVersion := none } st with
    | (_, some e, st2) => (some e, st2)
    | (_, none, st2) => deleteVariantsLoop s ident rest st2

/-- Embedding of `Store.deleteItem`: enumerate the versions (found=false on
a missing item node), delete each version with the check forced off, then
delete the bare item node with the caller's version sentinel, treating
`NoNode` as success and `BadVersion` as a version conflict. -/
def deleteItem (s : Store) (ident : Ident) (st : ZkState) :
    Bool × Option Fail × ZkState :=
  match versions s ident.location st with
  | .error e => (false, some e, st)
  | .ok (_, false) => (false, none, st)
  | .ok (vs, true) =>
    match deleteVariantsLoop s ident vs st with
    | (some e, st2) => (true, some e, st2)
    | (none, st2) =>
      match identPath s ident with
      | .error e => (true, some e, st2)
      | .ok p =>
        match zkDelete st2 p ident.actualZKVersion with
        | .error .noNode => (true, none, st2)
        | .error .badVersion => (true, some (.err .versionConflict), st2)
        | .error e => (true, some (.err (.zkError e)), st2)
        | .ok st3 => (true, none, st3)

/-- Embedding of `Store.Delete`: validate, then dispatch on whether the
ident names a version. -/
def deleteOp (s : Store) (ident : Ident) (st : ZkState) :
    Bool × Option Fail × ZkState :=
  match ident.validate with
  | .error e => (false, some e, st)
  | .ok _ =>
    if ident.version ≠ [] then deleteVersion s ident st
    else deleteItem s ident st

/-- Negating a negative remainder, per the spec's wording. -/
def specNegFold (m : Int) : Int :=
  if m < 0 then -m else m

/-- Bucket computation as the spec describes it: hash the UTF-8 bytes of
the name, interpret the last 8 bytes of the digest as a signed 64-bit
little-endian integer, reduce modulo the bucket count, and negate a
negative remainder. -/
def specBucketOf (H : Bytes → Bytes) (k : Int) (name : GoStr) : Int :=
  specNegFold (Int.tmod (toInt64LE ((H (utf8Bytes name)).reverse.take 8).reverse) k)

/-- Final path segment of a category as the spec describes it: clean the
path, then take the last segment ignoring leading and trailing slashes
(i.e. dropping empty pieces of the slash split). -/
def claimFinalSegment (category : GoStr) : GoStr :=
  ((splitSlash (pathClean category)).filter (fun e => e ≠ [])).getLastD []

/-- A well-formed path element: non-empty, not a dot element, and free of
slashes — exactly the shape of the elements of a cleaned rooted path. -/
def SegOK (x : GoStr) : Prop :=
  x ≠ [] ∧ x ≠ gs "." ∧ x ≠ gs ".." ∧ ¬ '/' ∈ x

instance (x : GoStr) : Decidable (SegOK x) := by
  unfold SegOK
  infer_instance

/-- Store construction invariants established by `NewStore` and its options
(src/zkstore/options.go): the base path is empty or rooted, the buckets
znode name passes the required-name validator, and the bucket count is
positive. -/
def StoreWF (s : Store) : Prop :=
  (s.basePath = [] ∨ isRooted s.basePath = true)
  ∧ validateNamed s.bucketsZnodeName true = .ok ()
  ∧ 0 < s.hashBuckets

end ZkStore

namespace FutureM

theorem applyCall_of_completed (p : PromiseSt) (c : PCall) (h : p.completed = true) :
    applyCall p c = p := by
  simp [applyCall, completeFn, h]

theorem applyCalls_of_completed (p : PromiseSt) (cs : List PCall) (h : p.completed = true) :
    applyCalls p cs = p := by
  induction cs with
  | nil => rfl
  | cons c rest ih =>
    simp only [applyCalls, List.foldl_cons] at *
    rw [applyCall_of_completed p c h, ih]

theorem applyCall_completed (p : PromiseSt) (c : PCall) (h : p.completed = false) :
    (applyCall p c).completed = true := by
  simp [applyCall, completeFn, h]

theorem runBatchInvoked_clean (cbs : List AsyncCb) (h : ∀ cb ∈ cbs, cb.panics = false) :
    runBatchInvoked cbs = (cbs.map AsyncCb.id, false) := by
  induction cbs with
  | nil => rfl
  | cons cb rest ih =>
    have hcb : cb.panics = false := h cb (List.mem_cons_self cb rest)
    have hrest : ∀ c ∈ rest, c.panics = false := fun c hc => h c (List.mem_cons_of_mem cb hc)
    simp [runBatchInvoked, hcb, ih hrest]

theorem runBatchInvoked_panics (pre post : List AsyncCb) (x : AsyncCb)
    (hpre : ∀ cb ∈ pre, cb.panics = false) (hx : x.panics = true) :
    runBatchInvoked (pre ++ x :: post) = (pre.map AsyncCb.id ++ [x.id], true) := by
  induction pre with
  | nil => simp [runBatchInvoked, hx]
  | cons cb rest ih =>
    have hcb : cb.panics = false := hpre cb (List.mem_cons_self cb rest)
    have hrest : ∀ c ∈ rest, c.panics = false := fun c hc => hpre c (List.mem_cons_of_mem cb hc)
    simp [runBatchInvoked, hcb, ih hrest]

/-- Claim C2, as stated, is false on the code: the completer loop of
`complete` walks the construction-time completers in reverse index order
but invokes each through `defer`, and deferred calls run last-in-first-out,
so the net invocation order is registration order.  For a promise with
completers registered as 1 then 2, the first `Complete(0, nil)` invokes 1
before 2, not the claimed reverse order. -/
theorem c2_counterexample :
    (completeFn (mkPromise [1, 2]) (some 0) none).2.1
      = [(1, some 0, none), (2, some 0, none)]
    ∧ (completeFn (mkPromise [1, 2]) (some 0) none).2.1
      ≠ [(2, some 0, none), (1, some 0, none)] := by
  decide

/-- Claim C2 amended: the first effective `Complete(v, err)` invokes every
construction-time synchronous completer with `(v, err)` on the same call
stack before `Complete` returns (the invocation trace is produced by
`complete` itself, before the completion takes effect for later calls), in
registration order: the first-registered completer runs first. -/
theorem c2_sync_completers_order (p : PromiseSt) (v : Val) (e : ErrO)
    (hfresh : p.completed = false) :
    (completeFn p v e).2.1 = p.completers.map (fun i => (i, v, e))
    ∧ (completeFn p v e).1.completed = true
    ∧ (completeFn p v e).1.fv = v
    ∧ (completeFn p v e).1.fe = e := by
  refine ⟨?_, ?_, ?_, ?_⟩ <;>
    simp [completeFn, hfresh, deferExec, completerPushOrder]

/-- Witness for C2: a fresh promise with completers 5 and 6 satisfies the
hypothesis and the invocation trace comes out in registration order. -/
theorem c2_witness :
    (mkPromise [5, 6]).completed = false
    ∧ (completeFn (mkPromise [5, 6]) (some 7) none).2.1
        = [(5, some 7, none), (6, some 7, none)] :=
  ⟨rfl, (c2_sync_completers_order (mkPromise [5, 6]) (some 7) none rfl).1⟩

/-- Claim C3: only the first completion call takes effect — the resulting
promise state after any non-empty call sequence equals the state after the
first call alone, that state is completed and stores the first call's value
and error, and a completed promise is a fixed point of every further
completion call (Pending to Completed is the only transition). -/
theorem c3_first_completion_wins (p0 : PromiseSt) (c : PCall) (rest : List PCall)
    (hfresh : p0.completed = false) :
    applyCalls p0 (c :: rest) = applyCall p0 c
    ∧ (applyCall p0 c).completed = true
    ∧ (applyCall p0 c).fv = (callArgs c).1
    ∧ (applyCall p0 c).fe = (callArgs c).2
    ∧ (∀ (q : PromiseSt) (d : PCall), q.completed = true → applyCall q d = q) := by
  refine ⟨?_, applyCall_completed p0 c hfresh, ?_, ?_, applyCall_of_completed⟩
  · show applyCalls (applyCall p0 c) rest = applyCall p0 c
    exact applyCalls_of_completed _ rest (applyCall_completed p0 c hfresh)
  · simp [applyCall, completeFn, hfresh]
  · simp [applyCall, completeFn, hfresh]

/-- Witness for C3: a fresh promise completed with `Value 4` then hit with
`Cancel` and `Error` keeps the first completion's value and a nil error. -/
theorem c3_witness :
    (mkPromise []).completed = false
    ∧ applyCalls (mkPromise []) [.valueC (some 4), .cancelC, .errorC none]
        = applyCall (mkPromise []) (.valueC (some 4))
    ∧ (applyCall (mkPromise []) (.valueC (some 4))).fv = some 4 :=
  ⟨rfl,
   (c3_first_completion_wins (mkPromise []) (.valueC (some 4)) [.cancelC, .errorC none] rfl).1,
   (c3_first_completion_wins (mkPromise []) (.valueC (some 4)) [.cancelC, .errorC none] rfl).2.2.1⟩

/-- Claim C4: a completed future's `Block`/`BlockContext` return its value
and error under every cancellation readiness and select tie-break (so a
simultaneously-ready cancellation loses to completion); an uncompleted
future with a fired cancellation returns a nil value with the
`context.Canceled` sentinel (`Block`) or the context's error
(`BlockContext`) — in particular an already-canceled context with a
never-completing future returns immediately; and with no cancellation the
wait returns exactly the completion state (blocking when uncompleted). -/
theorem c4_block_semantics :
    (∀ (v : Val) (e : ErrO) (cr pick : Bool),
      futureBlock ⟨some (v, e)⟩ cr pick = some (v, e))
    ∧ (∀ pick : Bool, futureBlock ⟨none⟩ true pick = some (none, some FErr.canceled))
    ∧ (∀ (f : FutureSt) (pick : Bool), futureBlock f false pick = f.completed)
    ∧ (∀ (v : Val) (e : ErrO) (ctx : Ctx) (pick : Bool),
      futureBlockContext ⟨some (v, e)⟩ ctx pick = some (v, e))
    ∧ (∀ (ctx : Ctx) (pick : Bool), ctx.doneB = true →
      futureBlockContext ⟨none⟩ ctx pick = some (none, ctx.errF)) := by
  refine ⟨?_, ?_, ?_, ?_, ?_⟩
  · intro v e cr pick
    cases cr <;> cases pick <;> simp [futureBlock, goSelect2]
  · intro pick
    cases pick <;> simp [futureBlock, goSelect2]
  · intro f pick
    cases h : f.completed <;> simp [futureBlock, goSelect2, h]
  · intro v e ctx pick
    cases h : ctx.doneB <;> cases pick <;> simp [futureBlockContext, goSelect2, h]
  · intro ctx pick h
    cases pick <;> simp [futureBlockContext, goSelect2, h]

/-- Witness for C4: an already-canceled context (with the canceled
sentinel as its error) against a never-completing future returns the
context's error with a nil value. -/
theorem c4_witness :
    futureBlockContext ⟨none⟩ ⟨true, some FErr.canceled⟩ true
      = some (none, some FErr.canceled) :=
  c4_block_semantics.2.2.2.2 ⟨true, some FErr.canceled⟩ true rfl

/-- Claim C7, as stated, is false on the code: the scheduled goroutine
wraps the whole listener loop in a single deferred recover, so a panic in
one listener aborts the loop and the remaining listeners of the batch never
run.  With listener 1 panicking and listener 2 registered after it, only
listener 1 is invoked (and the panic is flagged for the handler). -/
theorem c7_counterexample :
    runBatchInvoked [⟨1, true⟩, ⟨2, false⟩] = ([1], true)
    ∧ (2 : Nat) ∉ (runBatchInvoked [⟨1, true⟩, ⟨2, false⟩]).1 := by
  decide

/-- Claim C7 amended: completion schedules the asynchronous listeners
registered before completion as one batch in registration order; a batch
with no panicking listener invokes them all in registration order; a panic
in one listener stops the remaining listeners of the batch, and the panic
is caught by the panic handler exactly when one is registered (escaping the
goroutine otherwise). -/
theorem c7_async_batch (p : PromiseSt) (v : Val) (e : ErrO)
    (hfresh : p.completed = false) (hne : p.callbacks ≠ []) :
    (completeFn p v e).2.2 = some ⟨p.callbacks, v, e, p.panicHandlerSet⟩
    ∧ (∀ cbs : List AsyncCb, (∀ cb ∈ cbs, cb.panics = false) →
        runBatchInvoked cbs = (cbs.map AsyncCb.id, false))
    ∧ (∀ (pre post : List AsyncCb) (x : AsyncCb),
        (∀ cb ∈ pre, cb.panics = false) → x.panics = true →
        runBatchInvoked (pre ++ x :: post) = (pre.map AsyncCb.id ++ [x.id], true))
    ∧ (∀ b : AsyncBatch, (runBatchInvoked b.cbs).2 = true →
        (runBatch b).2.1 = b.handlerSet ∧ (runBatch b).2.2 = !b.handlerSet) := by
  refine ⟨?_, runBatchInvoked_clean, runBatchInvoked_panics, ?_⟩
  · have hlen : p.callbacks.length > 0 := List.length_pos.mpr hne
    simp [completeFn, hfresh, hlen]
  · intro b h
    simp [runBatch, h]

/-- Witness for C7: a fresh promise with one pending listener produces the
batch, and a clean two-listener batch runs both in order. -/
theorem c7_witness :
    (⟨[], [⟨3, false⟩], true, false, none, none⟩ : PromiseSt).completed = false
    ∧ (completeFn ⟨[], [⟨3, false⟩], true, false, none, none⟩ (some 1) none).2.2
        = some ⟨[⟨3, false⟩], some 1, none, true⟩
    ∧ runBatchInvoked [⟨3, false⟩, ⟨4, false⟩] = ([3, 4], false) :=
  ⟨rfl,
   (c7_async_batch ⟨[], [⟨3, false⟩], true, false, none, none⟩ (some 1) none rfl
      (by decide)).1,
   (c7_async_batch ⟨[], [⟨3, false⟩], true, false, none, none⟩ (some 1) none rfl
      (by decide)).2.1 [⟨3, false⟩, ⟨4, false⟩] (by decide)⟩

end FutureM

namespace ZkStore

theorem splitSlash_ne_nil (l : GoStr) : splitSlash l ≠ [] := by
  induction l with
  | nil => simp [splitSlash]
  | cons c rest ih =>
    simp only [splitSlash]
    cases h : splitSlash rest with
    | nil => simp
    | cons s ss => by_cases hc : c = '/' <;> simp [hc]

theorem splitSlash_cons_slash (rest : GoStr) :
    splitSlash ('/' :: rest) = [] :: splitSlash rest := by
  cases h : splitSlash rest with
  | nil => exact absurd h (splitSlash_ne_nil rest)
  | cons s ss => simp [splitSlash, h]

theorem splitSlash_cons_ne (c : Char) (rest : GoStr) (hc : ¬ c = '/') :
    splitSlash (c :: rest)
      = (c :: (splitSlash rest).headD []) :: (splitSlash rest).tail := by
  cases h : splitSlash rest with
  | nil => exact absurd h (splitSlash_ne_nil rest)
  | cons s ss => simp [splitSlash, h, hc]

theorem splitSlash_no_slash (l : GoStr) (x : GoStr) (hx : x ∈ splitSlash l) :
    ¬ '/' ∈ x := by
  induction l generalizing x with
  | nil =>
    simp only [splitSlash, List.mem_singleton] at hx
    simp [hx]
  | cons c rest ih =>
    by_cases hc : c = '/'
    · subst hc
      rw [splitSlash_cons_slash] at hx
      rcases List.mem_cons.mp hx with h1 | h1
      · simp [h1]
      · exact ih x h1
    · rw [splitSlash_cons_ne c rest hc] at hx
      cases h : splitSlash rest with
      | nil => exact absurd h (splitSlash_ne_nil rest)
      | cons s ss =>
        rw [h] at hx
        rcases List.mem_cons.mp hx with h1 | h1
        · subst h1
          intro hmem
          rcases List.mem_cons.mp hmem with h2 | h2
          · exact hc h2.symm
          · exact ih s (h ▸ List.mem_cons_self s ss) h2
        · exact ih x (h ▸ List.mem_cons_of_mem s h1)

theorem splitSlash_append_slash (a b : GoStr) :
    splitSlash (a ++ '/' :: b) = splitSlash a ++ splitSlash b := by
  induction a with
  | nil =>
    show splitSlash ('/' :: b) = splitSlash [] ++ splitSlash b
    rw [splitSlash_cons_slash]
    rfl
  | cons c rest ih =>
    show splitSlash (c :: (rest ++ '/' :: b)) = splitSlash (c :: rest) ++ splitSlash b
    by_cases hc : c = '/'
    · subst hc
      rw [splitSlash_cons_slash, splitSlash_cons_slash, ih]
      rfl
    · rw [splitSlash_cons_ne c _ hc, splitSlash_cons_ne c rest hc, ih]
      cases h : splitSlash rest with
      | nil => exact absurd h (splitSlash_ne_nil rest)
      | cons s ss => simp

theorem splitSlash_single (x : GoStr) (hx : ¬ '/' ∈ x) : splitSlash x = [x] := by
  induction x with
  | nil => rfl
  | cons c rest ih =>
    have hc : ¬ c = '/' := fun h => hx (h ▸ List.mem_cons_self c rest)
    have hrest : ¬ '/' ∈ rest := fun h => hx (List.mem_cons_of_mem c h)
    rw [splitSlash_cons_ne c rest hc, ih hrest]
    rfl

theorem splitSlash_joinSegs (L : List GoStr) (hL : ∀ x ∈ L, ¬ '/' ∈ x)
    (hne : L ≠ []) : splitSlash (joinSegs L) = L := by
  induction L with
  | nil => exact absurd rfl hne
  | cons s rest ih =>
    cases rest with
    | nil => exact splitSlash_single s (hL s (List.mem_cons_self s []))
    | cons t ts =>
      show splitSlash (s ++ '/' :: joinSegs (t :: ts)) = s :: t :: ts
      rw [splitSlash_append_slash, splitSlash_single s (hL s (List.mem_cons_self s _)),
        ih (fun x hx => hL x (List.mem_cons_of_mem s hx)) (by simp)]
      rfl

theorem splitSlash_joinSegs_flat (L : List GoStr) (hne : L ≠ []) :
    splitSlash (joinSegs L) = (L.map splitSlash).flatten := by
  induction L with
  | nil => exact absurd rfl hne
  | cons s rest ih =>
    cases rest with
    | nil => simp [joinSegs]
    | cons t ts =>
      show splitSlash (s ++ '/' :: joinSegs (t :: ts)) = _
      rw [splitSlash_append_slash, ih (by simp)]
      simp

theorem joinSegs_ne_nil (L : List GoStr) (hne : L ≠ [])
    (h : ∀ x ∈ L, x ≠ []) : joinSegs L ≠ [] := by
  cases L with
  | nil => exact absurd rfl hne
  | cons s rest =>
    cases rest with
    | nil => exact h s (List.mem_cons_self s [])
    | cons t ts =>
      show s ++ '/' :: joinSegs (t :: ts) ≠ []
      cases hs : s with
      | nil => simp
      | cons c cs => simp

theorem rebuild_true_eq (L : List GoStr) (hne : L ≠ []) :
    rebuild true L = '/' :: joinSegs L := by
  cases L with
  | nil => exact absurd rfl hne
  | cons s rest => rfl

theorem isRooted_rebuild_true (L : List GoStr) : isRooted (rebuild true L) = true := by
  cases L with
  | nil => rfl
  | cons s rest => rfl

theorem splitSlash_rebuild_true (L : List GoStr) (hne : L ≠ [])
    (hL : ∀ x ∈ L, ¬ '/' ∈ x) : splitSlash (rebuild true L) = [] :: L := by
  rw [rebuild_true_eq L hne]
  show splitSlash ([] ++ '/' :: joinSegs L) = [] :: L
  rw [splitSlash_append_slash, splitSlash_joinSegs L hL hne]
  rfl

theorem cleanStep_eq (r : Bool) (d : Nat) (st : List GoStr) (seg : GoStr) :
    cleanStep r (d, st) seg =
      if seg = [] ∨ seg = gs "." then (d, st)
      else if seg = gs ".." then
        match st with
        | [] => if r then (d, []) else (d + 1, [])
        | _ :: _ => (d, st.dropLast)
      else (d, st ++ [seg]) := rfl

theorem cleanStep_push (r : Bool) (d : Nat) (st : List GoStr) (x : GoStr)
    (hx : x ≠ [] ∧ x ≠ gs "." ∧ x ≠ gs "..") :
    cleanStep r (d, st) x = (d, st ++ [x]) := by
  rw [cleanStep_eq, if_neg (by simp [hx.1, hx.2.1]), if_neg hx.2.2]

theorem foldl_cleanStep_push (r : Bool) (B : List GoStr)
    (hB : ∀ x ∈ B, x ≠ [] ∧ x ≠ gs "." ∧ x ≠ gs "..") (d : Nat) (st : List GoStr) :
    B.foldl (cleanStep r) (d, st) = (d, st ++ B) := by
  induction B generalizing st with
  | nil => simp
  | cons x rest ih =>
    rw [List.foldl_cons, cleanStep_push r d st x (hB x (List.mem_cons_self x rest)),
      ih (fun y hy => hB y (List.mem_cons_of_mem x hy))]
    simp

theorem cleanSegs_append (r : Bool) (A B : List GoStr)
    (hB : ∀ x ∈ B, x ≠ [] ∧ x ≠ gs "." ∧ x ≠ gs "..") :
    cleanSegs r (A ++ B) = cleanSegs r A ++ B := by
  unfold cleanSegs
  rcases hA : A.foldl (cleanStep r) (0, []) with ⟨d, st⟩
  rw [List.foldl_append, hA, foldl_cleanStep_push r B hB]
  simp

theorem cleanStep_cases (r : Bool) (d : Nat) (st : List GoStr) (y : GoStr) :
    (cleanStep r (d, st) y).2 = st
    ∨ (cleanStep r (d, st) y).2 = st.dropLast
    ∨ ((cleanStep r (d, st) y).2 = st ++ [y] ∧ y ≠ [] ∧ y ≠ gs "." ∧ y ≠ gs "..") := by
  rw [cleanStep_eq]
  by_cases h1 : y = [] ∨ y = gs "."
  · rw [if_pos h1]
    exact Or.inl rfl
  · rw [if_neg h1]
    by_cases h2 : y = gs ".."
    · rw [if_pos h2]
      cases st with
      | nil =>
        by_cases hr : r <;> simp [hr]
      | cons a as =>
        exact Or.inr (Or.inl rfl)
    · rw [if_neg h2]
      push_neg at h1
      exact Or.inr (Or.inr ⟨rfl, h1.1, h1.2, h2⟩)

theorem foldl_cleanStep_fst_true (L : List GoStr) (d : Nat) (st : List GoStr) :
    (L.foldl (cleanStep true) (d, st)).1 = d := by
  induction L generalizing d st with
  | nil => rfl
  | cons x rest ih =>
    rw [List.foldl_cons]
    rcases h : cleanStep true (d, st) x with ⟨d2, st2⟩
    have hd : d2 = d := by
      rw [cleanStep_eq] at h
      by_cases h1 : x = [] ∨ x = gs "."
      · rw [if_pos h1] at h
        exact ((Prod.mk.injEq _ _ _ _).mp h.symm).1
      · rw [if_neg h1] at h
        by_cases h2 : x = gs ".."
        · rw [if_pos h2] at h
          cases st with
          | nil =>
            simp only [if_true] at h
            exact ((Prod.mk.injEq _ _ _ _).mp h.symm).1
          | cons a as =>
            exact ((Prod.mk.injEq _ _ _ _).mp h.symm).1
        · rw [if_neg h2] at h
          exact ((Prod.mk.injEq _ _ _ _).mp h.symm).1
    rw [hd]
    exact ih d st2

theorem foldl_cleanStep_mem (r : Bool) (L : List GoStr) (x : GoStr) :
    ∀ (d : Nat) (st : List GoStr), x ∈ (L.foldl (cleanStep r) (d, st)).2 →
    x ∈ st ∨ (x ∈ L ∧ x ≠ [] ∧ x ≠ gs "." ∧ x ≠ gs "..") := by
  induction L with
  | nil =>
    intro d st hx
    exact Or.inl hx
  | cons y rest ih =>
    intro d st hx
    rw [List.foldl_cons] at hx
    rcases hstep : cleanStep r (d, st) y with ⟨d2, st2⟩
    rw [hstep] at hx
    rcases ih d2 st2 hx with h | h
    · rcases cleanStep_cases r d st y with hc | hc | hc
      · rw [hstep] at hc
        simp only at hc
        rw [hc] at h
        exact Or.inl h
      · rw [hstep] at hc
        simp only at hc
        rw [hc] at h
        exact Or.inl (List.dropLast_subset st h)
      · rw [hstep] at hc
        simp only at hc
        rw [hc.1] at h
        rcases List.mem_append.mp h with h3 | h3
        · exact Or.inl h3
        · rw [List.mem_singleton] at h3
          subst h3
          exact Or.inr ⟨List.mem_cons_self x rest, hc.2⟩
    · exact Or.inr ⟨List.mem_cons_of_mem y h.1, h.2⟩

theorem cleanSegs_true_mem (L : List GoStr) (x : GoStr)
    (hx : x ∈ cleanSegs true L) :
    x ∈ L ∧ x ≠ [] ∧ x ≠ gs "." ∧ x ≠ gs ".." := by
  unfold cleanSegs at hx
  rw [foldl_cleanStep_fst_true] at hx
  simp only [List.replicate_zero, List.nil_append] at hx
  rcases foldl_cleanStep_mem true L x 0 [] hx with h | h
  · exact absurd h (List.not_mem_nil x)
  · exact h

theorem cleanSegs_true_SegOK (L : List GoStr) (hL : ∀ y ∈ L, ¬ '/' ∈ y)
    (x : GoStr) (hx : x ∈ cleanSegs true L) : SegOK x := by
  have h := cleanSegs_true_mem L x hx
  exact ⟨h.2.1, h.2.2.1, h.2.2.2, hL x h.1⟩

theorem pathClean_rooted_shape (q : GoStr) (hq : q ≠ []) (hr : isRooted q = true) :
    ∃ B, (∀ x ∈ B, SegOK x) ∧ pathClean q = rebuild true B := by
  refine ⟨cleanSegs true (splitSlash q), ?_, ?_⟩
  · exact cleanSegs_true_SegOK _ (fun y hy => splitSlash_no_slash q y hy)
  · unfold pathClean
    rw [if_neg hq, hr]

theorem rebuild_true_head (L : List GoStr) : ∃ t, rebuild true L = '/' :: t := by
  cases L with
  | nil => exact ⟨[], rfl⟩
  | cons s rest => exact ⟨joinSegs (s :: rest), rfl⟩

theorem rebuild_true_ne_nil (L : List GoStr) : rebuild true L ≠ [] := by
  obtain ⟨t, ht⟩ := rebuild_true_head L
  rw [ht]
  simp

theorem segOK_no_special (L : List GoStr) (hL : ∀ x ∈ L, SegOK x) :
    ∀ x ∈ L, x ≠ [] ∧ x ≠ gs "." ∧ x ≠ gs ".." := by
  intro x hx
  exact ⟨(hL x hx).1, (hL x hx).2.1, (hL x hx).2.2.1⟩

theorem segOK_no_slash (L : List GoStr) (hL : ∀ x ∈ L, SegOK x) :
    ∀ x ∈ L, ¬ '/' ∈ x := by
  intro x hx
  exact (hL x hx).2.2.2

theorem cleanSegs_true_nil_cons (L : List GoStr)
    (hL : ∀ x ∈ L, x ≠ [] ∧ x ≠ gs "." ∧ x ≠ gs "..") :
    cleanSegs true ([] :: L) = L := by
  have h := cleanSegs_append true [[]] L hL
  simp only [List.singleton_append] at h
  rw [h]
  rfl

theorem pathClean_rebuild_true (L : List GoStr) (hL : ∀ x ∈ L, SegOK x) :
    pathClean (rebuild true L) = rebuild true L := by
  cases L with
  | nil => decide
  | cons s rest =>
    unfold pathClean
    rw [if_neg (rebuild_true_ne_nil _), isRooted_rebuild_true,
      splitSlash_rebuild_true _ (by simp) (segOK_no_slash _ hL),
      cleanSegs_true_nil_cons _ (segOK_no_special _ hL)]

theorem segsOf_rebuild_true (L : List GoStr) (hL : ∀ x ∈ L, SegOK x) :
    segsOf (rebuild true L) = L := by
  cases L with
  | nil => decide
  | cons s rest =>
    unfold segsOf
    rw [splitSlash_rebuild_true _ (by simp) (segOK_no_slash _ hL)]
    have : ∀ x ∈ s :: rest, (fun e => decide (e ≠ [])) x = true := by
      intro x hx
      simp [(hL x hx).1]
    calc (([] : GoStr) :: s :: rest).filter (fun e => decide (e ≠ []))
        = (s :: rest).filter (fun e => decide (e ≠ [])) := by simp
      _ = s :: rest := List.filter_eq_self.mpr this

theorem rebuild_true_inj (A B : List GoStr) (hA : ∀ x ∈ A, SegOK x)
    (hB : ∀ x ∈ B, SegOK x) (h : rebuild true A = rebuild true B) : A = B := by
  have := congrArg segsOf h
  rwa [segsOf_rebuild_true A hA, segsOf_rebuild_true B hB] at this

theorem rebuild_true_ne_root (L : List GoStr) (hne : L ≠ [])
    (hL : ∀ x ∈ L, SegOK x) : rebuild true L ≠ gs "/" := by
  intro h
  have := rebuild_true_inj L [] hL (by simp) (h.trans rfl)
  exact hne this

theorem parentPath_rebuild_true (L : List GoStr) (hL : ∀ x ∈ L, SegOK x) :
    parentPath (rebuild true L) = rebuild true L.dropLast := by
  unfold parentPath
  rw [segsOf_rebuild_true L hL]

theorem pathJoin_pair_seg (A : List GoStr) (x2 : GoStr) (hA : ∀ x ∈ A, SegOK x)
    (hx : SegOK x2) : pathJoin [rebuild true A, x2] = rebuild true (A ++ [x2]) := by
  have hfil : ([rebuild true A, x2]).filter (fun e => decide (e ≠ []))
      = [rebuild true A, x2] := by
    apply List.filter_eq_self.mpr
    intro a ha
    rcases List.mem_cons.mp ha with h | h
    · simp [h, rebuild_true_ne_nil A]
    · rw [List.mem_singleton] at h
      simp [h, hx.1]
  have hjoin : joinSegs [rebuild true A, x2] = rebuild true A ++ '/' :: x2 := rfl
  obtain ⟨t, ht⟩ := rebuild_true_head A
  have hne : rebuild true A ++ '/' :: x2 ≠ [] := by simp
  unfold pathJoin
  rw [hfil, hjoin, if_neg hne]
  have hroot : isRooted (rebuild true A ++ '/' :: x2) = true := by
    rw [ht]
    rfl
  unfold pathClean
  rw [if_neg hne, hroot]
  cases A with
  | nil =>
    have hsplit : splitSlash (rebuild true [] ++ '/' :: x2)
        = [[], []] ++ [x2] := by
      show splitSlash (['/'] ++ '/' :: x2) = [[], []] ++ [x2]
      rw [splitSlash_append_slash, splitSlash_single x2 hx.2.2.2]
      rfl
    rw [hsplit, cleanSegs_append true [[], []] [x2]
      (by intro x hx2; rw [List.mem_singleton] at hx2; subst hx2;
          exact ⟨hx.1, hx.2.1, hx.2.2.1⟩)]
    rfl
  | cons s rest =>
    have hsplit : splitSlash (rebuild true (s :: rest) ++ '/' :: x2)
        = [] :: ((s :: rest) ++ [x2]) := by
      rw [splitSlash_append_slash,
        splitSlash_rebuild_true _ (by simp) (segOK_no_slash _ hA),
        splitSlash_single x2 hx.2.2.2]
      rfl
    rw [hsplit, cleanSegs_true_nil_cons]
    intro x hx2
    rcases List.mem_append.mp hx2 with h | h
    · exact segOK_no_special _ hA x h
    · rw [List.mem_singleton] at h
      subst h
      exact ⟨hx.1, hx.2.1, hx.2.2.1⟩

theorem natDigsAux_ne_nil (fuel n : Nat) (h : 0 < fuel) : natDigsAux fuel n ≠ [] := by
  cases fuel with
  | zero => exact absurd h (by simp)
  | succ f =>
    unfold natDigsAux
    by_cases hn : n < 10
    · simp [hn]
    · rw [if_neg hn]
      simp

theorem natDigsAux_chars (fuel n : Nat) (c : Char) (hc : c ∈ natDigsAux fuel n) :
    ∃ d, d < 10 ∧ c = digitChar d := by
  induction fuel generalizing n with
  | zero => exact absurd hc (by simp [natDigsAux])
  | succ f ih =>
    unfold natDigsAux at hc
    by_cases hn : n < 10
    · rw [if_pos hn, List.mem_singleton] at hc
      exact ⟨n, hn, hc⟩
    · rw [if_neg hn] at hc
      rcases List.mem_append.mp hc with h | h
      · exact ih (n / 10) h
      · rw [List.mem_singleton] at h
        exact ⟨n % 10, Nat.mod_lt n (by omega), h⟩

theorem digitChar_not_special : ∀ d, d < 10 →
    digitChar d ≠ '/' ∧ digitChar d ≠ '.' := by
  decide

theorem itoa_SegOK (i : Int) : SegOK (itoa i) := by
  have hchars : ∀ c ∈ itoa i, c ≠ '/' ∧ c ≠ '.' := by
    intro c hc
    unfold itoa at hc
    by_cases hi : i < 0
    · rw [if_pos hi] at hc
      rcases List.mem_cons.mp hc with h | h
      · subst h
        exact ⟨by decide, by decide⟩
      · obtain ⟨d, hd, hcd⟩ := natDigsAux_chars _ _ c h
        exact hcd ▸ digitChar_not_special d hd
    · rw [if_neg hi] at hc
      obtain ⟨d, hd, hcd⟩ := natDigsAux_chars _ _ c hc
      exact hcd ▸ digitChar_not_special d hd
  have hne : itoa i ≠ [] := by
    unfold itoa
    by_cases hi : i < 0
    · rw [if_pos hi]
      simp
    · rw [if_neg hi]
      exact natDigsAux_ne_nil _ _ (by omega)
  refine ⟨hne, ?_, ?_, ?_⟩
  · intro h
    have : '.' ∈ itoa i := by rw [h]; exact List.mem_singleton.mpr rfl
    exact (hchars '.' this).2 rfl
  · intro h
    have : '.' ∈ itoa i := by rw [h]; exact List.mem_cons_self _ _
    exact (hchars '.' this).2 rfl
  · intro h
    exact (hchars '/' h).1 rfl

theorem isNameChar_not_special (c : Char) (h : isNameChar c = true) :
    c ≠ '/' ∧ c ≠ '.' := by
  constructor
  · intro hc
    subst hc
    exact absurd h (by decide)
  · intro hc
    subst hc
    exact absurd h (by decide)

theorem allNameChars_SegOK (n : GoStr) (hne : n ≠ [])
    (hall : n.all isNameChar = true) : SegOK n := by
  have hchars : ∀ c ∈ n, c ≠ '/' ∧ c ≠ '.' :=
    fun c hc => isNameChar_not_special c (List.all_eq_true.mp hall c hc)
  refine ⟨hne, ?_, ?_, ?_⟩
  · intro h
    have : '.' ∈ n := by rw [h]; exact List.mem_singleton.mpr rfl
    exact (hchars '.' this).2 rfl
  · intro h
    have : '.' ∈ n := by rw [h]; exact List.mem_cons_self _ _
    exact (hchars '.' this).2 rfl
  · intro h
    exact (hchars '/' h).1 rfl

theorem validateNamed_ok_required (n : GoStr) (h : validateNamed n true = .ok ()) :
    SegOK n := by
  unfold validateNamed at h
  by_cases h1 : trimSpace n ≠ n
  · rw [if_pos h1] at h
    exact absurd h (by simp)
  · rw [if_neg h1] at h
    by_cases h2 : true && n = []
    · rw [if_pos h2] at h
      exact absurd h (by simp)
    · rw [if_neg h2] at h
      by_cases h3 : ¬ n.all isNameChar
      · rw [if_pos h3] at h
        exact absurd h (by simp)
      · push_neg at h3
        exact allNameChars_SegOK n (by simpa using h2) h3

theorem validateNamed_ok_optional (v : GoStr) (h : validateNamed v false = .ok ()) :
    v = [] ∨ SegOK v := by
  by_cases hv : v = []
  · exact Or.inl hv
  · refine Or.inr ?_
    unfold validateNamed at h
    by_cases h1 : trimSpace v ≠ v
    · rw [if_pos h1] at h
      exact absurd h (by simp)
    · rw [if_neg h1] at h
      rw [if_neg (by simp)] at h
      by_cases h3 : ¬ v.all isNameChar
      · rw [if_pos h3] at h
        exact absurd h (by simp)
      · push_neg at h3
        exact allNameChars_SegOK v hv h3

theorem flatten_splitSlash_no_slash (L : List GoStr) :
    ∀ x ∈ (L.map splitSlash).flatten, ¬ '/' ∈ x := by
  intro x hx
  rw [List.mem_flatten] at hx
  obtain ⟨l, hl, hxl⟩ := hx
  rw [List.mem_map] at hl
  obtain ⟨m, _, hm⟩ := hl
  exact splitSlash_no_slash m x (hm ▸ hxl)

theorem pathJoin_root_shape (e1 e2 last : GoStr) (hlast : SegOK last) :
    ∃ B, (∀ x ∈ B ++ [last], SegOK x)
      ∧ pathJoin [gs "/", e1, e2, last] = rebuild true (B ++ [last]) := by
  have hfil : ([gs "/", e1, e2, last]).filter (fun e => decide (e ≠ []))
      = gs "/" :: (([e1, e2].filter (fun e => decide (e ≠ []))) ++ [last]) := by
    show ([gs "/"] ++ ([e1, e2] ++ [last])).filter (fun e => decide (e ≠ []))
      = gs "/" :: (([e1, e2].filter (fun e => decide (e ≠ []))) ++ [last])
    rw [List.filter_append, List.filter_append]
    have hr : List.filter (fun e => decide (e ≠ [])) [gs "/"] = [gs "/"] := by decide
    have hl : List.filter (fun e => decide (e ≠ [])) [last] = [last] := by
      simp [hlast.1]
    simp only [hr, hl]
    rfl
  have hjoined : joinSegs (gs "/" :: (([e1, e2].filter (fun e => decide (e ≠ []))) ++ [last]))
      = ['/'] ++ '/' :: joinSegs (([e1, e2].filter (fun e => decide (e ≠ []))) ++ [last]) := by
    cases hm : ([e1, e2].filter (fun e => decide (e ≠ []))) ++ [last] with
    | nil => exact absurd hm (by simp)
    | cons a as => rfl
  have htailne : (([e1, e2].filter (fun e => decide (e ≠ []))) ++ [last]) ≠ [] := by simp
  have hsplit : splitSlash (joinSegs (gs "/" :: (([e1, e2].filter (fun e => decide (e ≠ []))) ++ [last])))
      = ([[], []] ++ ((([e1, e2].filter (fun e => decide (e ≠ []))).map splitSlash).flatten))
        ++ [last] := by
    rw [hjoined, splitSlash_append_slash, splitSlash_joinSegs_flat _ htailne]
    have h1 : splitSlash ['/'] = [[], []] := by decide
    rw [h1, List.map_append, List.flatten_append]
    simp [splitSlash_single last hlast.2.2.2]
  refine ⟨cleanSegs true ([[], []] ++ ((([e1, e2].filter (fun e => decide (e ≠ []))).map splitSlash).flatten)), ?_, ?_⟩
  · intro x hx
    rcases List.mem_append.mp hx with h | h
    · refine cleanSegs_true_SegOK _ ?_ x h
      intro y hy
      rcases List.mem_append.mp hy with h2 | h2
      · rcases List.mem_cons.mp h2 with h3 | h3
        · simp [h3]
        · rw [List.mem_singleton] at h3
          simp [h3]
      · exact flatten_splitSlash_no_slash _ y h2
    · rw [List.mem_singleton] at h
      exact h ▸ hlast
  · unfold pathJoin
    rw [hfil]
    have hne : joinSegs (gs "/" :: (([e1, e2].filter (fun e => decide (e ≠ []))) ++ [last])) ≠ [] := by
      rw [hjoined]
      simp
    rw [if_neg hne]
    unfold pathClean
    rw [if_neg hne]
    have hroot : isRooted (joinSegs (gs "/" :: (([e1, e2].filter (fun e => decide (e ≠ []))) ++ [last]))) = true := by
      rw [hjoined]
      rfl
    rw [hroot, hsplit, cleanSegs_append true _ [last]
      (by intro x hx; rw [List.mem_singleton] at hx; subst hx;
          exact ⟨hlast.1, hlast.2.1, hlast.2.2.1⟩)]

theorem flatten_splitSlash_singles (T : List GoStr) (h : ∀ x ∈ T, ¬ '/' ∈ x) :
    (T.map splitSlash).flatten = T := by
  induction T with
  | nil => rfl
  | cons t rest ih =>
    rw [List.map_cons, List.flatten_cons, splitSlash_single t (h t (List.mem_cons_self t rest)),
      ih (fun x hx => h x (List.mem_cons_of_mem t hx))]
    rfl

theorem pathJoin_rebuild_tail (NB : List GoStr) (hNB : ∀ x ∈ NB, SegOK x)
    (tail : List GoStr)
    (htail : ∀ x ∈ tail.filter (fun e => decide (e ≠ [])), SegOK x)
    (htne : tail.filter (fun e => decide (e ≠ [])) ≠ []) :
    pathJoin (rebuild true NB :: tail)
      = rebuild true (NB ++ tail.filter (fun e => decide (e ≠ []))) := by
  have hfil : (rebuild true NB :: tail).filter (fun e => decide (e ≠ []))
      = rebuild true NB :: tail.filter (fun e => decide (e ≠ [])) := by
    rw [List.filter_cons]
    simp [rebuild_true_ne_nil NB]
  have hjoined : joinSegs (rebuild true NB :: tail.filter (fun e => decide (e ≠ [])))
      = rebuild true NB ++ '/' :: joinSegs (tail.filter (fun e => decide (e ≠ []))) := by
    cases hm : tail.filter (fun e => decide (e ≠ [])) with
    | nil => exact absurd hm htne
    | cons a as => rfl
  have hne2 : joinSegs (rebuild true NB :: tail.filter (fun e => decide (e ≠ []))) ≠ [] := by
    rw [hjoined]
    obtain ⟨t, ht⟩ := rebuild_true_head NB
    rw [ht]
    simp
  have hsplit : splitSlash (joinSegs (rebuild true NB :: tail.filter (fun e => decide (e ≠ []))))
      = splitSlash (rebuild true NB) ++ tail.filter (fun e => decide (e ≠ [])) := by
    rw [hjoined, splitSlash_append_slash, splitSlash_joinSegs_flat _ htne,
      flatten_splitSlash_singles _ (fun x hx => (htail x hx).2.2.2)]
  have hroot : isRooted (joinSegs (rebuild true NB :: tail.filter (fun e => decide (e ≠ [])))) = true := by
    rw [hjoined]
    obtain ⟨t, ht⟩ := rebuild_true_head NB
    rw [ht]
    rfl
  unfold pathJoin
  rw [hfil, if_neg hne2]
  unfold pathClean
  rw [if_neg hne2, hroot, hsplit]
  have hTspec : ∀ x ∈ tail.filter (fun e => decide (e ≠ [])),
      x ≠ [] ∧ x ≠ gs "." ∧ x ≠ gs ".." := fun x hx =>
    ⟨(htail x hx).1, (htail x hx).2.1, (htail x hx).2.2.1⟩
  cases hNBc : NB with
  | nil =>
    have h1 : splitSlash (rebuild true []) = [[], []] := by decide
    rw [h1, cleanSegs_append true [[], []] _ hTspec]
    have h3 : cleanSegs true [[], []] = [] := by decide
    rw [h3]
  | cons s rest =>
    rw [splitSlash_rebuild_true _ (by simp) (segOK_no_slash _ (hNBc ▸ hNB))]
    have h2 : (([] : GoStr) :: s :: rest) ++ tail.filter (fun e => decide (e ≠ []))
        = [] :: ((s :: rest) ++ tail.filter (fun e => decide (e ≠ []))) := rfl
    rw [h2, cleanSegs_true_nil_cons]
    intro x hx
    rcases List.mem_append.mp hx with h3 | h3
    · exact segOK_no_special _ (hNBc ▸ hNB) x h3
    · exact hTspec x h3

theorem pathJoin_pair_empty (A : List GoStr) (hA : ∀ x ∈ A, SegOK x) :
    pathJoin [rebuild true A, []] = rebuild true A := by
  have hfil : ([rebuild true A, ([] : GoStr)]).filter (fun e => decide (e ≠ []))
      = [rebuild true A] := by
    simp [rebuild_true_ne_nil A]
  unfold pathJoin
  rw [hfil]
  have hjoin : joinSegs [rebuild true A] = rebuild true A := rfl
  rw [hjoin, if_neg (rebuild_true_ne_nil A)]
  exact pathClean_rebuild_true A hA

theorem tmod_gt_neg (a : Int) {k : Int} (h : 0 < k) : -k < Int.tmod a k := by
  rcases a with m | m
  · have h0 : (0 : Int) ≤ Int.tmod (Int.ofNat m) k :=
      Int.tmod_nonneg k (Int.ofNat_nonneg m)
    omega
  · rcases k with n | n
    · have ht : Int.tmod (Int.negSucc m) (Int.ofNat n) = -Int.ofNat ((m + 1) % n) := rfl
      rw [ht]
      simp only [Int.ofNat_eq_natCast] at h ⊢
      have hn : 0 < n := by exact_mod_cast h
      have := Nat.mod_lt (m + 1) hn
      omega
    · exact absurd h (by exact of_decide_eq_false rfl)

theorem goAbsMod_bounds (res : Int) {k : Int} (h : 0 < k) :
    0 ≤ goAbsMod res k ∧ goAbsMod res k < k := by
  have h1 : Int.tmod res k < k := Int.tmod_lt_of_pos res h
  have h2 : -k < Int.tmod res k := tmod_gt_neg res h
  unfold goAbsMod
  by_cases hm : Int.tmod res k < 0
  · rw [if_pos hm]
    omega
  · rw [if_neg hm]
    omega

theorem drop_eq_reverse_take {α : Type} (l : List α) (n : Nat) (h : n ≤ l.length) :
    l.drop (l.length - n) = (l.reverse.take n).reverse := by
  have h2 : (l.drop (l.length - n)).reverse = l.reverse.take n := by
    rw [List.reverse_drop]
    congr 1
    omega
  rw [← h2, List.reverse_reverse]

/-- Claim C8: with no bucket-override function, a fixed hash provider whose
digests are at least 8 bytes, and a fixed positive bucket count,
`bucketFor` is the pure function of the name computed by hashing its UTF-8
bytes, reading the last 8 digest bytes as a signed 64-bit little-endian
integer, reducing modulo the bucket count, and negating a negative
remainder; calling it twice on the same name trivially yields the same
bucket, the definition being effect-free. -/
theorem bucketsPath_ok_shape (s : Store) (cat bp : GoStr)
    (hname : SegOK s.bucketsZnodeName) (h : bucketsPath s cat = .ok bp) :
    ∃ NB, (∀ x ∈ NB, SegOK x) ∧ NB ≠ [] ∧ bp = rebuild true NB := by
  unfold bucketsPath at h
  by_cases hc : (splitSlash (pathClean cat)).getLastD [] = s.bucketsZnodeName
  · rw [if_pos hc] at h
    exact absurd h (by simp)
  · rw [if_neg hc] at h
    obtain ⟨B, hB, heq⟩ := pathJoin_root_shape s.basePath cat s.bucketsZnodeName hname
    refine ⟨B ++ [s.bucketsZnodeName], hB, by simp, ?_⟩
    rw [← heq]
    exact (Except.ok.injEq _ _ ▸ h).symm

theorem identPath_ok_shape (s : Store) (ident : Ident) (p : GoStr)
    (hname : SegOK s.bucketsZnodeName)
    (hn : SegOK ident.location.name)
    (hv : ident.version = [] ∨ SegOK ident.version)
    (h : identPath s ident = .ok p) :
    ∃ Q, (∀ x ∈ Q ++ [ident.location.name]
        ++ (if ident.version = [] then [] else [ident.version]), SegOK x)
      ∧ Q ≠ []
      ∧ p = rebuild true (Q ++ [ident.location.name]
          ++ (if ident.version = [] then [] else [ident.version])) := by
  unfold identPath at h
  cases hb : bucketFor s ident.location.name with
  | error e =>
    rw [hb] at h
    exact absurd h (by simp)
  | ok b =>
    rw [hb] at h
    cases hbp : bucketsPath s ident.location.category with
    | error e =>
      rw [hbp] at h
      exact absurd h (by simp)
    | ok bp =>
      rw [hbp] at h
      obtain ⟨NB, hNB, hNBne, hbpeq⟩ := bucketsPath_ok_shape s _ bp hname hbp
      have hp : p = pathJoin [bp, itoa b, ident.location.name, ident.version] :=
        (Except.ok.injEq _ _ ▸ h).symm
      have hfil : ([itoa b, ident.location.name, ident.version]).filter
          (fun e => decide (e ≠ []))
          = [itoa b, ident.location.name]
            ++ (if ident.version = [] then [] else [ident.version]) := by
        by_cases hver : ident.version = []
        · simp [List.filter_cons, (itoa_SegOK b).1, hn.1, hver]
        · simp [List.filter_cons, (itoa_SegOK b).1, hn.1, hver]
      have htailOK : ∀ x ∈ ([itoa b, ident.location.name, ident.version]).filter
          (fun e => decide (e ≠ [])), SegOK x := by
        rw [hfil]
        intro x hx
        rcases List.mem_append.mp hx with h1 | h1
        · rcases List.mem_cons.mp h1 with h2 | h2
          · exact h2 ▸ itoa_SegOK b
          · rw [List.mem_singleton] at h2
            exact h2 ▸ hn
        · by_cases hver : ident.version = []
          · rw [hver] at h1
            exact absurd h1 (by simp)
          · rw [if_neg hver, List.mem_singleton] at h1
            rcases hv with hv0 | hv0
            · exact absurd hv0 hver
            · exact h1 ▸ hv0
      have htailne : ([itoa b, ident.location.name, ident.version]).filter
          (fun e => decide (e ≠ [])) ≠ [] := by
        rw [hfil]
        simp
      refine ⟨NB ++ [itoa b], ?_, by simp, ?_⟩
      · intro x hx
        rcases List.mem_append.mp hx with h1 | h1
        · rcases List.mem_append.mp h1 with h2 | h2
          · rcases List.mem_append.mp h2 with h3 | h3
            · exact hNB x h3
            · rw [List.mem_singleton] at h3
              exact h3 ▸ itoa_SegOK b
          · rw [List.mem_singleton] at h2
            exact h2 ▸ hn
        · by_cases hver : ident.version = []
          · rw [hver] at h1
            exact absurd h1 (by simp)
          · rw [if_neg hver, List.mem_singleton] at h1
            rcases hv with hv0 | hv0
            · exact absurd hv0 hver
            · exact h1 ▸ hv0
      · rw [hp, hbpeq, pathJoin_rebuild_tail NB hNB _ htailOK htailne, hfil]
        simp

theorem cleanSegs_mem_wk (r : Bool) (S : List GoStr) (hS : ∀ y ∈ S, ¬ '/' ∈ y) :
    ∀ x ∈ cleanSegs r S, x ≠ [] ∧ ¬ '/' ∈ x := by
  intro x hx
  unfold cleanSegs at hx
  rcases List.mem_append.mp hx with h | h
  · have hx2 := List.eq_of_mem_replicate h
    subst hx2
    exact ⟨by decide, by decide⟩
  · rcases foldl_cleanStep_mem r S x 0 [] h with h2 | h2
    · exact absurd h2 (List.not_mem_nil x)
    · exact ⟨h2.2.1, hS x h2.1⟩

theorem claimFinalSegment_eq (cat : GoStr) :
    claimFinalSegment cat = (splitSlash (pathClean cat)).getLastD [] := by
  by_cases hcat : cat = []
  · subst hcat
    decide
  · have hwk := cleanSegs_mem_wk (isRooted cat) (splitSlash cat)
      (fun y hy => splitSlash_no_slash cat y hy)
    unfold claimFinalSegment pathClean
    simp only [if_neg hcat]
    by_cases hr : isRooted cat = true
    · rw [hr] at hwk ⊢
      cases hL : cleanSegs true (splitSlash cat) with
      | nil => decide
      | cons a rest =>
        rw [hL] at hwk
        rw [splitSlash_rebuild_true _ (by simp) (fun y hy => (hwk y hy).2)]
        have hfil : (([] : GoStr) :: a :: rest).filter (fun e => decide (e ≠ []))
            = a :: rest := by
          rw [List.filter_cons]
          simp only [decide_not]
          have : (a :: rest).filter (fun e => !decide (e = [])) = a :: rest := by
            apply List.filter_eq_self.mpr
            intro y hy
            simp [(hwk y hy).1]
          simp [this]
        rw [hfil]
        simp [List.getLastD_cons]
    · have hr2 : isRooted cat = false := by simpa using hr
      rw [hr2] at hwk ⊢
      cases hL : cleanSegs false (splitSlash cat) with
      | nil => decide
      | cons a rest =>
        rw [hL] at hwk
        have hjoin : rebuild false (a :: rest) = joinSegs (a :: rest) := rfl
        rw [hjoin, splitSlash_joinSegs _ (fun y hy => (hwk y hy).2) (by simp)]
        have hfil : (a :: rest).filter (fun e => decide (e ≠ [])) = a :: rest := by
          apply List.filter_eq_self.mpr
          intro y hy
          simp [(hwk y hy).1]
        rw [hfil]

theorem bucketsPath_error_iff (s : Store) (category : GoStr) :
    bucketsPath s category
        = .error (.err (.invalid "category may not end with the buckets znode name"))
      ↔ claimFinalSegment category = s.bucketsZnodeName := by
  rw [claimFinalSegment_eq]
  unfold bucketsPath
  by_cases hc : (splitSlash (pathClean category)).getLastD [] = s.bucketsZnodeName
  · rw [if_pos hc]
    exact ⟨fun _ => hc, fun _ => rfl⟩
  · rw [if_neg hc]
    exact iff_of_false (by simp) hc

/-- Claim C9: `bucketsPath` fails with the validation-kind error exactly
when the category's final path segment — after path cleaning, ignoring
leading and trailing slashes — equals the configured buckets znode name;
and `identPath` fails the same way for such a category (whenever the bucket
computation itself succeeds).  Both are pure path computations taking no ZK
state, so the failure precedes any backend I/O by construction. -/
theorem c9_buckets_category_rejection (s : Store) :
    (∀ category : GoStr,
      bucketsPath s category
          = .error (.err (.invalid "category may not end with the buckets znode name"))
        ↔ claimFinalSegment category = s.bucketsZnodeName)
    ∧ (∀ (ident : Ident) (b : Int), bucketFor s ident.location.name = .ok b →
        claimFinalSegment ident.location.category = s.bucketsZnodeName →
        identPath s ident
          = .error (.err (.invalid "category may not end with the buckets znode name"))) := by
  refine ⟨bucketsPath_error_iff s, ?_⟩
  intro ident b hb hcond
  have herr := (bucketsPath_error_iff s ident.location.category).mpr hcond
  unfold identPath
  simp only [hb, herr]

/-- Witness for C9: with the default buckets znode name, the categories
`buckets`, `/buckets`, `/buckets/` and `foo/buckets` are rejected while
`widgets` and `widgets/2017` are not, and `identPath` rejects a rejected
category as well. -/
theorem c9_witness :
    (bucketsPath ⟨gs "", gs "buckets", 256, some (fun _ => .ok 0), fun b => b⟩ (gs "buckets")
        = .error (.err (.invalid "category may not end with the buckets znode name")))
    ∧ (bucketsPath ⟨gs "", gs "buckets", 256, some (fun _ => .ok 0), fun b => b⟩ (gs "/buckets")
        = .error (.err (.invalid "category may not end with the buckets znode name")))
    ∧ (bucketsPath ⟨gs "", gs "buckets", 256, some (fun _ => .ok 0), fun b => b⟩ (gs "/buckets/")
        = .error (.err (.invalid "category may not end with the buckets znode name")))
    ∧ (bucketsPath ⟨gs "", gs "buckets", 256, some (fun _ => .ok 0), fun b => b⟩ (gs "foo/buckets")
        = .error (.err (.invalid "category may not end with the buckets znode name")))
    ∧ (bucketsPath ⟨gs "", gs "buckets", 256, some (fun _ => .ok 0), fun b => b⟩ (gs "widgets")
        ≠ .error (.err (.invalid "category may not end with the buckets znode name")))
    ∧ (bucketsPath ⟨gs "", gs "buckets", 256, some (fun _ => .ok 0), fun b => b⟩ (gs "widgets/2017")
        ≠ .error (.err (.invalid "category may not end with the buckets znode name")))
    ∧ (identPath ⟨gs "", gs "buckets", 256, some (fun _ => .ok 0), fun b => b⟩
          ⟨⟨gs "foo/buckets", gs "x"⟩, [], none⟩
        = .error (.err (.invalid "category may not end with the buckets znode name"))) := by
  refine ⟨?_, ?_, ?_, ?_, ?_, ?_, ?_⟩
  · exact ((c9_buckets_category_rejection _).1 _).mpr (by decide)
  · exact ((c9_buckets_category_rejection _).1 _).mpr (by decide)
  · exact ((c9_buckets_category_rejection _).1 _).mpr (by decide)
  · exact ((c9_buckets_category_rejection _).1 _).mpr (by decide)
  · intro h
    exact absurd (((c9_buckets_category_rejection _).1 _).mp h) (by decide)
  · intro h
    exact absurd (((c9_buckets_category_rejection _).1 _).mp h) (by decide)
  · exact (c9_buckets_category_rejection _).2 ⟨⟨gs "foo/buckets", gs "x"⟩, [], none⟩ 0
      (by decide) (by decide)

theorem zkLookup_cons_ne (q : GoStr) (n : Znode) (st : ZkState) (p : GoStr)
    (h : q ≠ p) : zkLookup ((q, n) :: st) p = zkLookup st p := by
  simp [zkLookup, h]

theorem zkLookup_cons_self (q : GoStr) (n : Znode) (st : ZkState) :
    zkLookup ((q, n) :: st) q = some n := by
  simp [zkLookup]

theorem zkExists_false_of (st : ZkState) (p : GoStr) (hp : p ≠ gs "/")
    (h : zkLookup st p = none) : zkExists st p = false := by
  simp [zkExists, hp, h]

theorem zkExists_of_lookup (st : ZkState) (p : GoStr) (n : Znode)
    (h : zkLookup st p = some n) : zkExists st p = true := by
  simp [zkExists, h]

theorem zkCreate_ok (st : ZkState) (p : GoStr) (data : Bytes)
    (h1 : zkExists st p = false) (h2 : zkExists st (parentPath p) = true) :
    zkCreate st p data = .ok ((p, ⟨data, 0⟩) :: st) := by
  unfold zkCreate
  rw [h1, h2]
  simp

theorem rebuild_true_append_len_ne (A B1 B2 : List GoStr)
    (h1 : ∀ x ∈ A ++ B1, SegOK x) (h2 : ∀ x ∈ A ++ B2, SegOK x)
    (hlen : B1.length ≠ B2.length) :
    rebuild true (A ++ B1) ≠ rebuild true (A ++ B2) := by
  intro h
  have heq := rebuild_true_inj _ _ h1 h2 h
  have := congrArg List.length heq
  simp only [List.length_append] at this
  omega

theorem setFullyLoop_conflict (item : Item) (hver : 0 ≤ item.ident.actualZKVersion) :
    ∀ (rest : List GoStr), rest ≠ [] → ∀ (A : List GoStr) (st : ZkState),
    (∀ x ∈ A, SegOK x) → (∀ x ∈ rest, SegOK x) →
    zkExists st (rebuild true A) = true →
    zkLookup st (rebuild true (A ++ rest)) = none →
    ∃ st2, setFullyLoop item rest (rebuild true A) st
        = (.error (.err .versionConflict), st2)
      ∧ zkLookup st2 (rebuild true (A ++ rest)) = none := by
  intro rest
  induction rest with
  | nil => exact fun h => absurd rfl h
  | cons seg rest2 ih =>
    intro _ A st hA hrest hparent hnone
    have hseg : SegOK seg := hrest seg (List.mem_cons_self _ _)
    have hrest2OK : ∀ x ∈ rest2, SegOK x := fun x hx => hrest x (List.mem_cons_of_mem _ hx)
    have hA1 : ∀ x ∈ A ++ [seg], SegOK x := by
      intro x hx
      rcases List.mem_append.mp hx with h | h
      · exact hA x h
      · rw [List.mem_singleton] at h
        exact h ▸ hseg
    have hcur : pathJoin [rebuild true A, seg] = rebuild true (A ++ [seg]) :=
      pathJoin_pair_seg A seg hA hseg
    cases rest2 with
    | nil =>
      have hne_root : rebuild true (A ++ [seg]) ≠ gs "/" :=
        rebuild_true_ne_root _ (by simp) hA1
      have hex : zkExists st (rebuild true (A ++ [seg])) = false :=
        zkExists_false_of st _ hne_root hnone
      refine ⟨st, ?_, hnone⟩
      unfold setFullyLoop
      rw [hcur, hex]
      simp only [Bool.false_eq_true, if_false]
      rw [if_pos (And.intro (by simp) hver)]
    | cons y rest3 =>
      have hassoc : (A ++ [seg]) ++ (y :: rest3) = A ++ (seg :: y :: rest3) := by
        simp
      have hfullOK : ∀ x ∈ A ++ (seg :: y :: rest3), SegOK x := by
        intro x hx
        rcases List.mem_append.mp hx with h | h
        · exact hA x h
        · exact hrest x h
      by_cases hex : zkExists st (rebuild true (A ++ [seg])) = true
      · obtain ⟨st2, heq, hnone2⟩ := ih (by simp) (A ++ [seg]) st hA1 hrest2OK hex
          (by rw [hassoc]; exact hnone)
        refine ⟨st2, ?_, by rw [← hassoc]; exact hnone2⟩
        unfold setFullyLoop
        rw [hcur, hex]
        simp only [if_true]
        exact heq
      · have hexf : zkExists st (rebuild true (A ++ [seg])) = false :=
          Bool.eq_false_iff.mpr hex
        have hparent2 : parentPath (rebuild true (A ++ [seg])) = rebuild true A := by
          rw [parentPath_rebuild_true _ hA1, List.dropLast_concat]
        have hcreate := zkCreate_ok st (rebuild true (A ++ [seg]))
          (setFullyNodeData item (y :: rest3)) hexf (by rw [hparent2]; exact hparent)
        have hne_cur : rebuild true (A ++ (seg :: y :: rest3)) ≠ rebuild true (A ++ [seg]) := by
          have := rebuild_true_append_len_ne A (seg :: y :: rest3) [seg] hfullOK hA1 (by simp)
          exact this
        have hlook1 : zkLookup ((rebuild true (A ++ [seg]),
            (⟨setFullyNodeData item (y :: rest3), 0⟩ : Znode)) :: st)
              (rebuild true ((A ++ [seg]) ++ (y :: rest3))) = none := by
          rw [hassoc, zkLookup_cons_ne _ _ _ _ (fun hq => hne_cur hq.symm)]
          exact hnone
        have hex1 : zkExists ((rebuild true (A ++ [seg]),
            (⟨setFullyNodeData item (y :: rest3), 0⟩ : Znode)) :: st)
              (rebuild true (A ++ [seg])) = true :=
          zkExists_of_lookup _ _ _ (zkLookup_cons_self _ _ _)
        obtain ⟨st2, heq, hnone2⟩ := ih (by simp) (A ++ [seg]) _ hA1 hrest2OK hex1 hlook1
        refine ⟨st2, ?_, by rw [← hassoc]; exact hnone2⟩
        unfold setFullyLoop
        rw [hcur, hexf]
        simp only [Bool.false_eq_true, if_false]
        rw [if_neg (by simp), hcreate]
        exact heq

theorem setFullyNodeData_nil (item : Item) : setFullyNodeData item [] = item.data := by
  simp [setFullyNodeData]

theorem setFullyNodeData_cons (item : Item) (rest : List GoStr) (h : rest ≠ []) :
    setFullyNodeData item rest
      = if item.ident.version ≠ [] ∧ rest.length = 1 then item.data else [] := by
  unfold setFullyNodeData
  by_cases hc : item.ident.version ≠ [] ∧ rest.length = 1
  · rw [if_pos (Or.inr hc), if_pos hc]
  · rw [if_neg (fun hor => hor.elim h hc), if_neg hc]

theorem setFullyLoop_creates (item : Item) (hver : item.ident.actualZKVersion < 0) :
    ∀ (rest : List GoStr), rest ≠ [] → ∀ (A : List GoStr) (st : ZkState),
    (∀ x ∈ A, SegOK x) → (∀ x ∈ rest, SegOK x) →
    zkExists st (rebuild true A) = true →
    zkLookup st (rebuild true (A ++ rest)) = none →
    ∃ st2, setFullyLoop item rest (rebuild true A) st = (.ok (), st2)
      ∧ zkLookup st2 (rebuild true (A ++ rest)) = some ⟨item.data, 0⟩
      ∧ (∀ (q : GoStr) (n : Znode), zkLookup st q = some n → zkLookup st2 q = some n)
      ∧ (item.ident.version ≠ [] → 2 ≤ rest.length →
          zkLookup st (rebuild true (A ++ rest.dropLast)) = none →
          zkLookup st2 (rebuild true (A ++ rest.dropLast)) = some ⟨item.data, 0⟩)
      ∧ (∀ q : GoStr, zkLookup st q = none → q ≠ rebuild true (A ++ rest) →
          q ≠ rebuild true (A ++ rest.dropLast) →
          zkLookup st2 q = none ∨ zkLookup st2 q = some ⟨[], 0⟩) := by
  intro rest
  induction rest with
  | nil => exact fun h => absurd rfl h
  | cons seg rest2 ih =>
    intro _ A st hA hrest hparent hnone
    have hseg : SegOK seg := hrest seg (List.mem_cons_self _ _)
    have hrest2OK : ∀ x ∈ rest2, SegOK x := fun x hx => hrest x (List.mem_cons_of_mem _ hx)
    have hA1 : ∀ x ∈ A ++ [seg], SegOK x := by
      intro x hx
      rcases List.mem_append.mp hx with h | h
      · exact hA x h
      · rw [List.mem_singleton] at h
        exact h ▸ hseg
    have hcur : pathJoin [rebuild true A, seg] = rebuild true (A ++ [seg]) :=
      pathJoin_pair_seg A seg hA hseg
    cases rest2 with
    | nil =>
      have hne_root : rebuild true (A ++ [seg]) ≠ gs "/" :=
        rebuild_true_ne_root _ (by simp) hA1
      have hex : zkExists st (rebuild true (A ++ [seg])) = false :=
        zkExists_false_of st _ hne_root hnone
      have hparent2 : parentPath (rebuild true (A ++ [seg])) = rebuild true A := by
        rw [parentPath_rebuild_true _ hA1, List.dropLast_concat]
      have hcreate := zkCreate_ok st (rebuild true (A ++ [seg]))
        (setFullyNodeData item []) hex (by rw [hparent2]; exact hparent)
      refine ⟨(rebuild true (A ++ [seg]), ⟨setFullyNodeData item [], 0⟩) :: st, ?_, ?_, ?_, ?_, ?_⟩
      · unfold setFullyLoop
        rw [hcur, hex]
        simp only [Bool.false_eq_true, if_false]
        rw [if_neg (fun hc => by omega), hcreate]
        rfl
      · rw [setFullyNodeData_nil]
        exact zkLookup_cons_self _ _ _
      · intro q n hq
        have hne : rebuild true (A ++ [seg]) ≠ q := by
          intro h
          rw [h, hq] at hnone
          exact Option.noConfusion hnone
        rw [zkLookup_cons_ne _ _ _ _ hne]
        exact hq
      · intro _ hlen
        simp at hlen
      · intro q hq hqfull _
        left
        rw [zkLookup_cons_ne _ _ _ _ (fun h => hqfull h.symm)]
        exact hq
    | cons y rest3 =>
      have hassoc : (A ++ [seg]) ++ (y :: rest3) = A ++ (seg :: y :: rest3) := by
        simp
      have hdropassoc : (A ++ [seg]) ++ (y :: rest3).dropLast
          = A ++ (seg :: y :: rest3).dropLast := by
        have h1 : (seg :: y :: rest3).dropLast = seg :: (y :: rest3).dropLast := rfl
        rw [h1]
        simp
      have hfullOK : ∀ x ∈ A ++ (seg :: y :: rest3), SegOK x := by
        intro x hx
        rcases List.mem_append.mp hx with h | h
        · exact hA x h
        · exact hrest x h
      by_cases hex : zkExists st (rebuild true (A ++ [seg])) = true
      · obtain ⟨st2, heq, hfull2, hpres, hpar, hother⟩ :=
          ih (by simp) (A ++ [seg]) st hA1 hrest2OK hex (by rw [hassoc]; exact hnone)
        refine ⟨st2, ?_, by rw [← hassoc]; exact hfull2, hpres, ?_, ?_⟩
        · unfold setFullyLoop
          rw [hcur, hex]
          simp only [if_true]
          exact heq
        · intro hvne hlen hparnone
          by_cases hlen2 : 2 ≤ (y :: rest3).length
          · rw [← hdropassoc]
            apply hpar hvne hlen2
            rw [hdropassoc]
            exact hparnone
          · -- rest3 = [], so the parent node is exactly the existing current element
            have hr3 : rest3 = [] := by
              cases rest3 with
              | nil => rfl
              | cons a b => simp at hlen2
            subst hr3
            rw [← hdropassoc] at hparnone
            simp only [List.dropLast_single, List.append_nil] at hparnone
            have : rebuild true (A ++ [seg]) ≠ gs "/" :=
              rebuild_true_ne_root _ (by simp) hA1
            rw [zkExists, Bool.or_eq_true] at hex
            rcases hex with h | h
            · exact absurd (by exact of_decide_eq_true h) this
            · rw [hparnone] at h
              simp at h
        · intro q hq hqfull hqpar
          apply hother q hq
          · rw [hassoc]
            exact hqfull
          · rw [hdropassoc]
            exact hqpar
      · have hexf : zkExists st (rebuild true (A ++ [seg])) = false :=
          Bool.eq_false_iff.mpr hex
        have hparent2 : parentPath (rebuild true (A ++ [seg])) = rebuild true A := by
          rw [parentPath_rebuild_true _ hA1, List.dropLast_concat]
        have hcreate := zkCreate_ok st (rebuild true (A ++ [seg]))
          (setFullyNodeData item (y :: rest3)) hexf (by rw [hparent2]; exact hparent)
        have hne_cur : rebuild true (A ++ (seg :: y :: rest3)) ≠ rebuild true (A ++ [seg]) :=
          rebuild_true_append_len_ne A (seg :: y :: rest3) [seg] hfullOK hA1 (by simp)
        have hlook1 : zkLookup ((rebuild true (A ++ [seg]),
            (⟨setFullyNodeData item (y :: rest3), 0⟩ : Znode)) :: st)
              (rebuild true ((A ++ [seg]) ++ (y :: rest3))) = none := by
          rw [hassoc, zkLookup_cons_ne _ _ _ _ (fun hq => hne_cur hq.symm)]
          exact hnone
        have hex1 : zkExists ((rebuild true (A ++ [seg]),
            (⟨setFullyNodeData item (y :: rest3), 0⟩ : Znode)) :: st)
              (rebuild true (A ++ [seg])) = true :=
          zkExists_of_lookup _ _ _ (zkLookup_cons_self _ _ _)
        obtain ⟨st2, heq, hfull2, hpres, hpar, hother⟩ :=
          ih (by simp) (A ++ [seg]) _ hA1 hrest2OK hex1 hlook1
        have hstep : setFullyLoop item (seg :: y :: rest3) (rebuild true A) st
            = setFullyLoop item (y :: rest3) (rebuild true (A ++ [seg]))
              ((rebuild true (A ++ [seg]),
                (⟨setFullyNodeData item (y :: rest3), 0⟩ : Znode)) :: st) := by
          unfold setFullyLoop
          rw [hcur, hexf]
          simp only [Bool.false_eq_true, if_false]
          rw [if_neg (by simp), hcreate]
          rfl
        refine ⟨st2, by rw [hstep]; exact heq, by rw [← hassoc]; exact hfull2, ?_, ?_, ?_⟩
        · intro q n hq
          apply hpres
          have hne : rebuild true (A ++ [seg]) ≠ q := by
            intro h
            rw [zkExists, h, hq] at hexf
            simp at hexf
          rw [zkLookup_cons_ne _ _ _ _ hne]
          exact hq
        · intro hvne hlen hparnone
          by_cases hlen2 : 2 ≤ (y :: rest3).length
          · rw [← hdropassoc]
            apply hpar hvne hlen2
            have hdOK : ∀ x ∈ (A ++ [seg]) ++ (y :: rest3).dropLast, SegOK x := by
              intro x hx
              rcases List.mem_append.mp hx with h | h
              · exact hA1 x h
              · exact hrest2OK x (List.dropLast_subset _ h)
            have hne_par : rebuild true (A ++ [seg])
                ≠ rebuild true (A ++ [seg] ++ (y :: rest3).dropLast) := by
              have hlen3 : ([] : List GoStr).length ≠ ((y :: rest3).dropLast).length := by
                cases rest3 with
                | nil => simp at hlen2
                | cons a b => simp
              have := rebuild_true_append_len_ne (A ++ [seg]) [] ((y :: rest3).dropLast)
                (by simpa using hA1) hdOK hlen3
              simpa using this
            rw [zkLookup_cons_ne _ _ _ _ hne_par, hdropassoc]
            exact hparnone
          · have hr3 : rest3 = [] := by
              cases rest3 with
              | nil => rfl
              | cons a b => simp at hlen2
            subst hr3
            have hparc : rebuild true (A ++ (seg :: [y]).dropLast)
                = rebuild true (A ++ [seg]) := rfl
            rw [hparc]
            have hdata : setFullyNodeData item [y] = item.data := by
              rw [setFullyNodeData_cons item [y] (by simp), if_pos ⟨hvne, by simp⟩]
            apply hpres
            rw [hdata] at hex1 ⊢
            exact zkLookup_cons_self _ _ _
        · intro q hq hqfull hqpar
          by_cases hqc : q = rebuild true (A ++ [seg])
          · subst hqc
            -- the created element is neither the final node nor the
            -- parent-of-version node here, so its data is nil
            have hdata : setFullyNodeData item (y :: rest3) = [] := by
              rw [setFullyNodeData_cons item (y :: rest3) (by simp)]
              cases rest3 with
              | nil =>
                rw [if_neg]
                intro hc
                apply hqpar
                rw [← hdropassoc]
                simp
              | cons a b =>
                rw [if_neg]
                intro hc
                simp at hc
            right
            apply hpres
            rw [hdata] at hex1 ⊢
            exact zkLookup_cons_self _ _ _
          · apply hother q
            · rw [zkLookup_cons_ne _ _ _ _ (fun h => hqc h.symm)]
              exact hq
            · rw [hassoc]
              exact hqfull
            · rw [hdropassoc]
              exact hqpar

theorem ident_validate_ok (i : Ident) (h : i.validate = .ok ()) :
    SegOK i.location.name ∧ (i.version = [] ∨ SegOK i.version) := by
  unfold Ident.validate at h
  cases hl : i.location.validate with
  | error e =>
    rw [hl] at h
    exact absurd h (by simp)
  | ok u =>
    rw [hl] at h
    unfold Location.validate at hl
    cases hc : validateCategory i.location.category with
    | error e =>
      rw [hc] at hl
      exact absurd hl (by simp)
    | ok u2 =>
      rw [hc] at hl
      cases u
      exact ⟨validateNamed_ok_required _ hl, validateNamed_ok_optional _ h⟩

theorem item_validate_ok (it : Item) (h : it.validate = .ok ()) :
    it.ident.validate = .ok () := by
  unfold Item.validate at h
  cases hi : it.ident.validate with
  | error e =>
    rw [hi] at h
    exact absurd h (by simp)
  | ok u =>
    cases u
    rfl

theorem setFullyLoop_nil_seg (item : Item) (P : List GoStr) (st : ZkState) :
    setFullyLoop item ([] :: P) (gs "/") st = setFullyLoop item P (gs "/") st := by
  have hpj : pathJoin [gs "/", []] = gs "/" := by decide
  have hex : zkExists st (gs "/") = true := by simp [zkExists]
  conv_lhs => rw [setFullyLoop]
  rw [hpj, hex]
  simp only [if_true]

/-- Claim C1 amended: for every valid item whose path computation succeeds,
`Put` fails with the version-conflict error exactly when the backend
compare-and-swap rejects the supplied version: either the node exists and a
set version other than the `-1` sentinel mismatches the node's stamp (the
fast-path `Set` reports a bad version), or the node does not exist and the
ident carries a non-negative version as passed to the backend
(`actualZKVersion ≥ 0`) — and in the latter case the node is not created.
A present-but-negative stored version (for example `SetZKVersion(-1)`)
behaves like an absent version, which is what forces the amendment. -/
theorem c1_put_version_conflict (s : Store) (item : Item) (st : ZkState) (p : GoStr)
    (hsname : validateNamed s.bucketsZnodeName true = .ok ())
    (hval : item.validate = .ok ())
    (hip : identPath s item.ident = .ok p) :
    ((put s item st).1 = .error (.err .versionConflict)
      ↔ ((∃ n, zkLookup st p = some n ∧ item.ident.actualZKVersion ≠ -1
            ∧ item.ident.actualZKVersion ≠ n.version)
        ∨ (zkLookup st p = none ∧ 0 ≤ item.ident.actualZKVersion)))
    ∧ (zkLookup st p = none → 0 ≤ item.ident.actualZKVersion →
        zkLookup (put s item st).2 p = none) := by
  obtain ⟨hn, hv⟩ := ident_validate_ok _ (item_validate_ok _ hval)
  have hbk : SegOK s.bucketsZnodeName := validateNamed_ok_required _ hsname
  obtain ⟨Q, hPOK, hQne, hpeq⟩ := identPath_ok_shape s item.ident p hbk hn hv hip
  generalize hPdef : Q ++ [item.ident.location.name]
    ++ (if item.ident.version = [] then [] else [item.ident.version]) = P at hPOK hpeq
  have hPne : P ≠ [] := by
    rw [← hPdef]
    simp
  cases hl : zkLookup st p with
  | some n =>
    have hzk : zkSet st p item.data item.ident.actualZKVersion
        = if item.ident.actualZKVersion ≠ -1 ∧ item.ident.actualZKVersion ≠ n.version
          then .error .badVersion
          else .ok (n.version + 1,
            st.map (fun q => if q.1 = p then (q.1, ⟨item.data, n.version + 1⟩) else q)) := by
      unfold zkSet
      rw [hl]
    by_cases hc : item.ident.actualZKVersion ≠ -1 ∧ item.ident.actualZKVersion ≠ n.version
    · have hzk2 : zkSet st p item.data item.ident.actualZKVersion = .error .badVersion := by
        rw [hzk, if_pos hc]
      have hput : put s item st = (.error (.err .versionConflict), st) := by
        unfold put
        simp only [hval, hip, hzk2]
      rw [hput]
      refine ⟨⟨fun _ => Or.inl ⟨n, rfl, hc⟩, fun _ => rfl⟩, fun h1 _ => ?_⟩
      exact absurd h1 (by simp)
    · have hzk2 : zkSet st p item.data item.ident.actualZKVersion
          = .ok (n.version + 1,
            st.map (fun q => if q.1 = p then (q.1, ⟨item.data, n.version + 1⟩) else q)) := by
        rw [hzk, if_neg hc]
      have hput : put s item st = (.ok (setIdentZKVersion item.ident (n.version + 1)),
          st.map (fun q => if q.1 = p then (q.1, ⟨item.data, n.version + 1⟩) else q)) := by
        unfold put
        simp only [hval, hip, hzk2]
      rw [hput]
      refine ⟨⟨fun h => absurd h (by simp), fun h => ?_⟩, fun h1 _ => ?_⟩
      · rcases h with ⟨n2, hn2, hcond⟩ | ⟨hnone, _⟩
        · rw [Option.some.injEq] at hn2
          subst hn2
          exact absurd hcond hc
        · exact Option.noConfusion hnone
      · exact absurd h1 (by simp)
  | none =>
    have hzk : zkSet st p item.data item.ident.actualZKVersion = .error .noNode := by
      unfold zkSet
      rw [hl]
    have hroot : zkExists st (rebuild true ([] : List GoStr)) = true := by
      simp [zkExists, rebuild]
    have hnoneP : zkLookup st (rebuild true (([] : List GoStr) ++ P)) = none := by
      rw [List.nil_append, ← hpeq]
      exact hl
    by_cases hver : 0 ≤ item.ident.actualZKVersion
    · obtain ⟨st2, heqloop, hnone2⟩ := setFullyLoop_conflict item hver P hPne [] st
        (by simp) hPOK hroot hnoneP
      have hsetF : setFully s item st = (.error (.err .versionConflict), st2) := by
        unfold setFully
        simp only [hip]
        rw [hpeq, splitSlash_rebuild_true P hPne (segOK_no_slash P hPOK),
          setFullyLoop_nil_seg]
        rw [show rebuild true ([] : List GoStr) = gs "/" from rfl] at heqloop
        rw [heqloop]
      have hput : put s item st = (.error (.err .versionConflict), st2) := by
        unfold put
        simp only [hval, hip, hzk, hsetF]
      rw [hput]
      refine ⟨⟨fun _ => Or.inr ⟨rfl, hver⟩, fun _ => rfl⟩, fun _ _ => ?_⟩
      show zkLookup st2 p = none
      rw [hpeq]
      rw [List.nil_append] at hnone2
      exact hnone2
    · push_neg at hver
      obtain ⟨st2, heqloop, hfull2, _, _, _⟩ := setFullyLoop_creates item hver P hPne [] st
        (by simp) hPOK hroot hnoneP
      have hsetF : setFully s item st = (.ok 0, st2) := by
        unfold setFully
        simp only [hip]
        rw [hpeq, splitSlash_rebuild_true P hPne (segOK_no_slash P hPOK),
          setFullyLoop_nil_seg]
        rw [show rebuild true ([] : List GoStr) = gs "/" from rfl] at heqloop
        have hmust : mustExist st2 (rebuild true P) = .ok 0 := by
          unfold mustExist
          rw [List.nil_append] at hfull2
          rw [hfull2]
        simp only [heqloop, hmust]
      have hput : put s item st = (.ok (setIdentZKVersion item.ident 0), st2) := by
        unfold put
        simp only [hval, hip, hzk, hsetF]
      rw [hput]
      refine ⟨⟨fun h => absurd h (by simp), fun h => ?_⟩, fun _ h2 => absurd h2 (by omega)⟩
      rcases h with ⟨n2, hn2, _⟩ | ⟨_, hge⟩
      · exact Option.noConfusion hn2
      · omega

/-- Claim C1, as stated, is false on the code: an item whose ident carries
a present but negative ZK version (`SetZKVersion(-1)`) is valid, yet `Put`
on a nonexistent node succeeds and creates the node instead of returning
the version conflict, because the slow-path guard is `actualZKVersion() >= 0`,
not presence of the pointer. -/
theorem c1_counterexample :
    (⟨⟨⟨gs "widgets", gs "foo"⟩, [], some (-1)⟩, [1]⟩ : Item).validate = .ok ()
    ∧ (⟨⟨⟨gs "widgets", gs "foo"⟩, [], some (-1)⟩, [1]⟩ : Item).ident.zkVersion = some (-1)
    ∧ zkLookup [] (gs "/widgets/buckets/0/foo") = none
    ∧ identPath ⟨gs "", gs "buckets", 1, some (fun _ => .ok 0), fun b => b⟩
        (⟨⟨⟨gs "widgets", gs "foo"⟩, [], some (-1)⟩, [1]⟩ : Item).ident
        = .ok (gs "/widgets/buckets/0/foo")
    ∧ (put ⟨gs "", gs "buckets", 1, some (fun _ => .ok 0), fun b => b⟩
        (⟨⟨⟨gs "widgets", gs "foo"⟩, [], some (-1)⟩, [1]⟩ : Item) []).1
        ≠ .error (.err .versionConflict)
    ∧ (put ⟨gs "", gs "buckets", 1, some (fun _ => .ok 0), fun b => b⟩
        (⟨⟨⟨gs "widgets", gs "foo"⟩, [], some (-1)⟩, [1]⟩ : Item) []).1
        = .ok ⟨⟨gs "widgets", gs "foo"⟩, [], some 0⟩ := by
  decide

/-- Witness for C1: on a store with one existing node of stamp 3, a put
asserting stamp 7 is rejected with the version conflict, via the theorem's
fast-path direction. -/
theorem c1_witness :
    (put ⟨gs "", gs "buckets", 1, some (fun _ => .ok 0), fun b => b⟩
      (⟨⟨⟨gs "widgets", gs "foo"⟩, [], some 7⟩, [9]⟩ : Item)
      [(gs "/widgets/buckets/0/foo", ⟨[5], 3⟩)]).1
      = .error (.err .versionConflict) :=
  ((c1_put_version_conflict ⟨gs "", gs "buckets", 1, some (fun _ => .ok 0), fun b => b⟩
      (⟨⟨⟨gs "widgets", gs "foo"⟩, [], some 7⟩, [9]⟩ : Item)
      [(gs "/widgets/buckets/0/foo", ⟨[5], 3⟩)] (gs "/widgets/buckets/0/foo")
      (by decide) (by decide) (by decide)).1).mpr
    (Or.inl ⟨⟨[5], 3⟩, by decide, by decide, by decide⟩)

/-- Claim C5: a `Put` of a valid item naming a variant (non-empty named
version), taking the slow path (node absent, no version asserted),
succeeds; if the variant's parent item node did not exist it is created
with the same payload as the variant node, an already-existing parent is
left untouched, and every other node created by the walk carries empty
data. -/
theorem c5_variant_parent_materialization (s : Store) (item : Item) (st : ZkState)
    (p : GoStr)
    (hsname : validateNamed s.bucketsZnodeName true = .ok ())
    (hval : item.validate = .ok ())
    (hvar : item.ident.version ≠ [])
    (hver : item.ident.actualZKVersion < 0)
    (hip : identPath s item.ident = .ok p)
    (hmiss : zkLookup st p = none) :
    (put s item st).1 = .ok (setIdentZKVersion item.ident 0)
    ∧ (zkLookup st (parentPath p) = none →
        zkLookup (put s item st).2 (parentPath p) = some ⟨item.data, 0⟩
        ∧ zkLookup (put s item st).2 p = some ⟨item.data, 0⟩)
    ∧ (∀ n, zkLookup st (parentPath p) = some n →
        zkLookup (put s item st).2 (parentPath p) = some n)
    ∧ (∀ q, zkLookup st q = none → q ≠ p → q ≠ parentPath p →
        zkLookup (put s item st).2 q = none
        ∨ zkLookup (put s item st).2 q = some ⟨[], 0⟩) := by
  obtain ⟨hn, hv⟩ := ident_validate_ok _ (item_validate_ok _ hval)
  have hbk : SegOK s.bucketsZnodeName := validateNamed_ok_required _ hsname
  obtain ⟨Q, hPOK, hQne, hpeq⟩ := identPath_ok_shape s item.ident p hbk hn hv hip
  rw [if_neg hvar] at hPOK hpeq
  have hPne : (Q ++ [item.ident.location.name] ++ [item.ident.version]) ≠ [] := by simp
  have hlen : 2 ≤ (Q ++ [item.ident.location.name] ++ [item.ident.version]).length := by
    simp
  have hdrop : (Q ++ [item.ident.location.name] ++ [item.ident.version]).dropLast
      = Q ++ [item.ident.location.name] := List.dropLast_concat
  have hparp : parentPath p = rebuild true (Q ++ [item.ident.location.name]) := by
    rw [hpeq, parentPath_rebuild_true _ hPOK, hdrop]
  have hzk : zkSet st p item.data item.ident.actualZKVersion = .error .noNode := by
    unfold zkSet
    rw [hmiss]
  have hroot : zkExists st (rebuild true ([] : List GoStr)) = true := by
    simp [zkExists, rebuild]
  have hnoneP : zkLookup st (rebuild true (([] : List GoStr)
      ++ (Q ++ [item.ident.location.name] ++ [item.ident.version]))) = none := by
    rw [List.nil_append, ← hpeq]
    exact hmiss
  obtain ⟨st2, heqloop, hfull2, hpres, hpar, hother⟩ :=
    setFullyLoop_creates item hver _ hPne [] st (by simp) hPOK hroot hnoneP
  simp only [List.nil_append] at hfull2 hpar hother
  rw [hdrop] at hpar hother
  have hsetF : setFully s item st = (.ok 0, st2) := by
    unfold setFully
    simp only [hip]
    rw [hpeq, splitSlash_rebuild_true _ hPne (segOK_no_slash _ hPOK),
      setFullyLoop_nil_seg]
    rw [show rebuild true ([] : List GoStr) = gs "/" from rfl] at heqloop
    have hmust : mustExist st2
        (rebuild true (Q ++ [item.ident.location.name] ++ [item.ident.version]))
        = .ok 0 := by
      unfold mustExist
      rw [hfull2]
    simp only [heqloop, hmust]
  have hput : put s item st = (.ok (setIdentZKVersion item.ident 0), st2) := by
    unfold put
    simp only [hval, hip, hzk, hsetF]
  rw [hput]
  refine ⟨rfl, ?_, ?_, ?_⟩
  · intro hpn
    rw [hparp] at hpn ⊢
    refine ⟨hpar hvar hlen hpn, ?_⟩
    rw [hpeq]
    exact hfull2
  · intro n hn2
    exact hpres _ n hn2
  · intro q hq hqp hqpar
    apply hother q hq
    · rw [← hpeq]
      exact hqp
    · rw [← hparp]
      exact hqpar

/-- Witness for C5: putting a variant `v1` of a brand-new item `foo`
creates the parent node with the same payload as the variant node, leaves
a pre-existing parent intact, and fills intermediates with nil data. -/
theorem c5_witness :
    (put ⟨gs "", gs "buckets", 1, some (fun _ => .ok 0), fun b => b⟩
        (⟨⟨⟨gs "widgets", gs "foo"⟩, gs "v1", none⟩, [1, 2]⟩ : Item) []).1
      = .ok ⟨⟨gs "widgets", gs "foo"⟩, gs "v1", some 0⟩
    ∧ zkLookup (put ⟨gs "", gs "buckets", 1, some (fun _ => .ok 0), fun b => b⟩
        (⟨⟨⟨gs "widgets", gs "foo"⟩, gs "v1", none⟩, [1, 2]⟩ : Item) []).2
        (gs "/widgets/buckets/0/foo") = some ⟨[1, 2], 0⟩
    ∧ zkLookup (put ⟨gs "", gs "buckets", 1, some (fun _ => .ok 0), fun b => b⟩
        (⟨⟨⟨gs "widgets", gs "foo"⟩, gs "v1", none⟩, [1, 2]⟩ : Item) []).2
        (gs "/widgets/buckets/0/foo/v1") = some ⟨[1, 2], 0⟩ := by
  have h := c5_variant_parent_materialization
    ⟨gs "", gs "buckets", 1, some (fun _ => .ok 0), fun b => b⟩
    (⟨⟨⟨gs "widgets", gs "foo"⟩, gs "v1", none⟩, [1, 2]⟩ : Item) []
    (gs "/widgets/buckets/0/foo/v1")
    (by decide) (by decide) (by decide) (by decide) (by decide) (by decide)
  have hpar := h.2.1 (by decide)
  refine ⟨h.1, ?_, hpar.2⟩
  have hpp : parentPath (gs "/widgets/buckets/0/foo/v1") = gs "/widgets/buckets/0/foo" := by
    decide
  rw [← hpp]
  exact hpar.1

theorem ident_validate_loc (i : Ident) (h : i.validate = .ok ()) :
    i.location.validate = .ok () := by
  unfold Ident.validate at h
  cases hl : i.location.validate with
  | error e =>
    rw [hl] at h
    exact absurd h (by simp)
  | ok u =>
    cases u
    rfl

theorem identPath_ignores_zkVersion (s : Store) (l : Location) (v : GoStr)
    (a b : Option Int) : identPath s ⟨l, v, a⟩ = identPath s ⟨l, v, b⟩ := rfl

theorem bucketFor_none_no_err (s : Store) (name : GoStr) (h : s.bucketFunc = none)
    (e : StoreErr) : bucketFor s name ≠ .error (.err e) := by
  unfold bucketFor hashBytesToBucket
  rw [h]
  by_cases hl : (s.hashProviderFunc (utf8Bytes name)).length < 8
  · rw [if_pos hl]
    simp
  · rw [if_neg hl]
    simp

theorem zkDelete_neg_one_not_bad (st : ZkState) (p : GoStr) :
    zkDelete st p (-1) ≠ .error .badVersion := by
  unfold zkDelete
  cases hl : zkLookup st p with
  | none => simp
  | some n =>
    show (if (-1 : Int) ≠ -1 ∧ (-1 : Int) ≠ n.version
        then (Except.error ZkErr.badVersion : Except ZkErr ZkState)
        else if childNames st p ≠ [] then Except.error ZkErr.notEmpty
        else Except.ok (st.filter (fun q => q.1 ≠ p))) ≠ Except.error ZkErr.badVersion
    rw [if_neg (show ¬ ((-1 : Int) ≠ -1 ∧ (-1 : Int) ≠ n.version) from fun hc => hc.1 rfl)]
    by_cases hch : childNames st p ≠ []
    · rw [if_pos hch]
      simp
    · rw [if_neg hch]
      simp

theorem deleteVersion_forced_no_conflict (s : Store) (ident : Ident) (v : GoStr)
    (st : ZkState) (hbf : s.bucketFunc = none) :
    ((deleteVersion s { ident with version := v, zkVersion := none } st).2).1
      ≠ some (.err .versionConflict) := by
  unfold deleteVersion
  cases hip : identPath s { ident with version := v, zkVersion := none } with
  | error e =>
    cases e with
    | panicked => simp
    | err e2 =>
      cases e2 with
      | versionConflict =>
        exact absurd hip (by
          unfold identPath
          cases hb : bucketFor s ident.location.name with
          | error e3 =>
            intro hcontra
            simp only at hcontra
            rw [Except.error.injEq] at hcontra
            exact bucketFor_none_no_err s ident.location.name hbf .versionConflict
              (hcontra ▸ hb)
          | ok b =>
            cases hbp : bucketsPath s ident.location.category with
            | error e4 =>
              unfold bucketsPath at hbp
              by_cases hc : (splitSlash (pathClean ident.location.category)).getLastD []
                  = s.bucketsZnodeName
              · rw [if_pos hc] at hbp
                rw [Except.error.injEq] at hbp
                subst hbp
                simp
              · rw [if_neg hc] at hbp
                exact absurd hbp (by simp)
            | ok bp => simp)
      | invalid msg => simp
      | zkError e3 => simp
      | couldNotStat => simp
  | ok p =>
    have hav : ({ ident with version := v, zkVersion := none } : Ident).actualZKVersion
        = -1 := rfl
    rw [hav]
    cases hd : zkDelete st p (-1) with
    | error e =>
      cases e with
      | badVersion => exact absurd hd (zkDelete_neg_one_not_bad st p)
      | noNode => simp [hd]
      | nodeExists => simp [hd]
      | notEmpty => simp [hd]
    | ok st2 => simp [hd]

theorem deleteVariantsLoop_no_conflict (s : Store) (ident : Ident)
    (hbf : s.bucketFunc = none) :
    ∀ (vs : List GoStr) (st : ZkState),
    (deleteVariantsLoop s ident vs st).1 ≠ some (.err .versionConflict) := by
  intro vs
  induction vs with
  | nil =>
    intro st
    simp [deleteVariantsLoop]
  | cons v rest ih =>
    intro st
    unfold deleteVariantsLoop
    rcases hd : deleteVersion s { ident with version := v, zkVersion := none } st
      with ⟨found, oe, st2⟩
    cases oe with
    | none => exact ih st2
    | some e =>
      simp only
      intro hcontra
      rw [Option.some.injEq] at hcontra
      subst hcontra
      have := deleteVersion_forced_no_conflict s ident v st hbf
      rw [hd] at this
      exact this rfl

/-- Claim C6, as stated, is false on the code: for an existing bare item
node with zero variants, the variants enumeration succeeds with an empty
list and `found=true`, so Delete proceeds to delete the parent node and
returns `found=true` — it does not return `found=false` although no
variants were found. -/
theorem c6_counterexample :
    childNames [(gs "/widgets/buckets/0/foo", ⟨[7], 4⟩)] (gs "/widgets/buckets/0/foo") = []
    ∧ versions ⟨gs "", gs "buckets", 1, some (fun _ => .ok 0), fun b => b⟩
        ⟨gs "widgets", gs "foo"⟩ [(gs "/widgets/buckets/0/foo", ⟨[7], 4⟩)]
        = .ok ([], true)
    ∧ deleteOp ⟨gs "", gs "buckets", 1, some (fun _ => .ok 0), fun b => b⟩
        ⟨⟨gs "widgets", gs "foo"⟩, [], none⟩ [(gs "/widgets/buckets/0/foo", ⟨[7], 4⟩)]
        = (true, none, []) := by
  decide

/-- Claim C6 amended: for every valid bare Ident, Delete enumerates the
item's variants and deletes each with the version check forced off (the
loop can never produce a version conflict when the bucket override is
unset), then deletes the parent node honoring the caller's version
sentinel on the parent only; when the item node does not exist (the
variants enumeration reports not-found) it returns found=false with a nil
error and an unchanged state — so re-running Delete on an already-deleted
item returns (found=false, nil).  An existing item with zero variants
still proceeds to parent deletion with found=true. -/
theorem c6_delete_item (s : Store) (ident : Ident) (st : ZkState)
    (hval : ident.validate = .ok ()) (hbare : ident.version = []) :
    (∀ p, identPath s ident = .ok p → zkExists st p = false →
      deleteOp s ident st = (false, none, st))
    ∧ (s.bucketFunc = none → ∀ (vs : List GoStr) (st3 : ZkState),
        (deleteVariantsLoop s ident vs st3).1 ≠ some (.err .versionConflict))
    ∧ (∀ (vs : List GoStr) (st2 : ZkState) (p : GoStr),
        versions s ident.location st = .ok (vs, true) →
        deleteVariantsLoop s ident vs st = (none, st2) →
        identPath s ident = .ok p →
        deleteItem s ident st = (match zkDelete st2 p ident.actualZKVersion with
          | .error .noNode => (true, none, st2)
          | .error .badVersion => (true, some (.err .versionConflict), st2)
          | .error e => (true, some (.err (.zkError e)), st2)
          | .ok st3 => (true, none, st3))) := by
  obtain ⟨loc, ver, zkv⟩ := ident
  simp only at hbare
  subst hbare
  refine ⟨?_, fun hbf => deleteVariantsLoop_no_conflict s _ hbf, ?_⟩
  · intro p hip hex
    have hva : versions s loc st = .ok ([], false) := by
      unfold versions
      simp only [ident_validate_loc _ hval]
      have hip2 : identPath s ⟨loc, [], none⟩ = .ok p := hip
      simp only [hip2]
      unfold zkChildren
      rw [hex]
      simp
    unfold deleteOp
    simp only [hval]
    rw [if_neg (by simp)]
    unfold deleteItem
    simp only [hva]
  · intro vs st2 p hva hloop hip
    unfold deleteItem
    simp only [hva, hloop, hip]

/-- Witness for C6: deleting a never-created item returns found=false with
a nil error and an unchanged state, via the theorem's not-found direction,
and the variants loop on a store without bucket override never produces a
version conflict. -/
theorem c6_witness :
    deleteOp ⟨gs "", gs "buckets", 1, none, fun _ => [0, 0, 0, 0, 0, 0, 0, 0]⟩
        ⟨⟨gs "widgets", gs "foo"⟩, [], none⟩ [] = (false, none, [])
    ∧ (deleteVariantsLoop ⟨gs "", gs "buckets", 1, none, fun _ => [0, 0, 0, 0, 0, 0, 0, 0]⟩
        ⟨⟨gs "widgets", gs "foo"⟩, [], none⟩ [gs "v1"] []).1
        ≠ some (.err .versionConflict) :=
  ⟨(c6_delete_item ⟨gs "", gs "buckets", 1, none, fun _ => [0, 0, 0, 0, 0, 0, 0, 0]⟩
      ⟨⟨gs "widgets", gs "foo"⟩, [], none⟩ [] (by decide) (by decide)).1
      (gs "/widgets/buckets/0/foo") (by decide) (by decide),
   (c6_delete_item ⟨gs "", gs "buckets", 1, none, fun _ => [0, 0, 0, 0, 0, 0, 0, 0]⟩
      ⟨⟨gs "widgets", gs "foo"⟩, [], none⟩ [] (by decide) (by decide)).2.1 rfl
      [gs "v1"] []⟩

theorem goAbsMod_eq_specNegFold (res k : Int) :
    goAbsMod res k = specNegFold (Int.tmod res k) := by
  unfold goAbsMod specNegFold
  by_cases hm : Int.tmod res k < 0
  · rw [if_pos hm, if_pos hm]
    omega
  · rw [if_neg hm, if_neg hm]

theorem c8_bucketFor_deterministic (s : Store) (H : Bytes → Bytes) (name : GoStr)
    (hover : s.bucketFunc = none) (hH : s.hashProviderFunc = H)
    (hlen : 8 ≤ (H (utf8Bytes name)).length) :
    bucketFor s name = .ok (specBucketOf H s.hashBuckets name)
    ∧ bucketFor s name = bucketFor s name := by
  refine ⟨?_, rfl⟩
  have hnot : ¬ (H (utf8Bytes name)).length < 8 := by omega
  simp only [bucketFor, hover, hH, hashBytesToBucket, hnot, if_false, specBucketOf,
    drop_eq_reverse_take _ 8 hlen, goAbsMod_eq_specNegFold]

/-- Witness for C8: a store with a constant 8-byte digest provider and 5
buckets maps a name through the spec's computation. -/
theorem c8_witness :
    bucketFor ⟨gs "", gs "buckets", 5, none, fun _ => [9, 0, 0, 0, 0, 0, 0, 0]⟩ (gs "foo")
      = .ok (specBucketOf (fun _ => [9, 0, 0, 0, 0, 0, 0, 0]) 5 (gs "foo"))
    ∧ bucketFor ⟨gs "", gs "buckets", 5, none, fun _ => [9, 0, 0, 0, 0, 0, 0, 0]⟩ (gs "foo")
      = .ok 4 :=
  ⟨(c8_bucketFor_deterministic _ (fun _ => [9, 0, 0, 0, 0, 0, 0, 0]) (gs "foo")
      rfl rfl (by decide)).1, by decide⟩

/-- Claim C10: `hashBytesToBucket` slices the last 8 digest bytes, so with
a digest of at least 8 bytes and a positive bucket count `bucketFor`
returns a bucket `b` with `0 ≤ b < hashBuckets` and a nil error, while a
provider with a shorter digest makes the Go slice lower bound negative and
the operation panics (aborts) rather than returning an error value. -/
theorem c10_bucket_totality (s : Store) (name : GoStr) (hover : s.bucketFunc = none) :
    (0 < s.hashBuckets → 8 ≤ (s.hashProviderFunc (utf8Bytes name)).length →
      ∃ b, bucketFor s name = .ok b ∧ 0 ≤ b ∧ b < s.hashBuckets)
    ∧ ((s.hashProviderFunc (utf8Bytes name)).length < 8 →
      bucketFor s name = .error .panicked
      ∧ ∀ e : StoreErr, bucketFor s name ≠ .error (.err e)) := by
  constructor
  · intro hk hlen
    have hnot : ¬ (s.hashProviderFunc (utf8Bytes name)).length < 8 := by omega
    refine ⟨goAbsMod (toInt64LE ((s.hashProviderFunc (utf8Bytes name)).drop
      ((s.hashProviderFunc (utf8Bytes name)).length - 8))) s.hashBuckets, ?_, ?_⟩
    · simp only [bucketFor, hover, hashBytesToBucket, hnot, if_false]
    · exact goAbsMod_bounds _ hk
  · intro hlen
    have heq : bucketFor s name = .error .panicked := by
      simp only [bucketFor, hover, hashBytesToBucket, hlen, if_true]
    refine ⟨heq, fun e hcontra => ?_⟩
    rw [heq] at hcontra
    exact absurd hcontra (by simp)

/-- Witness for C10: an 8-byte digest yields a bucket, a 4-byte digest
panics. -/
theorem c10_witness :
    (∃ b, bucketFor ⟨gs "", gs "buckets", 7, none, fun _ => [1, 2, 3, 4, 5, 6, 7, 8]⟩ (gs "x")
        = .ok b ∧ 0 ≤ b ∧ b < 7)
    ∧ bucketFor ⟨gs "", gs "buckets", 7, none, fun _ => [1, 2, 3, 4]⟩ (gs "x")
        = .error .panicked :=
  ⟨(c10_bucket_totality ⟨gs "", gs "buckets", 7, none, fun _ => [1, 2, 3, 4, 5, 6, 7, 8]⟩
      (gs "x") rfl).1 (by decide) (by decide),
   ((c10_bucket_totality ⟨gs "", gs "buckets", 7, none, fun _ => [1, 2, 3, 4]⟩
      (gs "x") rfl).2 (by decide)).1⟩

end ZkStore

end DcosGo
